import Mathlib

/-!
# envfile: a shallow embedding of `src/envfile.go`

The Go package reads a stream line by line with a `bufio.Scanner`, validates
every line and collects the surviving `key=value` lines in an `Envs` value.

Conventions of the embedding

* a Go `string` and a Go `[]byte` are both a list of bytes, `Bytes`; a byte is a
  natural number below 256;
* a rune is a natural number (a code point);
* a Go `error` is the text of its message (`Option Bytes`, `none` for `nil`);
* a nil slice and an empty slice are both `[]`;
* the standard-library functions the package calls (`utf8.Valid`,
  `utf8.DecodeRune`, `unicode.IsSpace`, `strings.Cut`, `strings.TrimLeftFunc`,
  `strings.ContainsFunc`, `bytes.TrimPrefix`, `bufio.Scanner` with the default
  `bufio.ScanLines` split function) are modelled after their Go sources.
-/

set_option linter.dupNamespace false

namespace Envfile

/-! ## Bytes, strings and runes -/

/-- A Go byte string (`string` or `[]byte`): the list of its bytes. -/
abbrev Bytes := List Nat

/-- The constant `utf8.RuneError`, U+FFFD. -/
def RuneError : Nat := 0xFFFD

/-- The constant `utf8.RuneSelf`: bytes below it are single-byte runes. -/
def RuneSelf : Nat := 0x80

/-- The constant `utf8.MaxRune`. -/
def MaxRune : Nat := 0x10FFFF

/-- The function `utf8.EncodeRune` (as `utf8.AppendRune` on an empty slice): the
UTF-8 encoding of a rune; surrogates and values above `MaxRune` are encoded as
`RuneError`. -/
def EncodeRune (r : Nat) : Bytes :=
  if r ≤ 0x7F then [r]
  else if r ≤ 0x7FF then [0xC0 + r / 64, 0x80 + r % 64]
  else if MaxRune < r ∨ (0xD800 ≤ r ∧ r ≤ 0xDFFF) then [0xEF, 0xBF, 0xBD]
  else if r ≤ 0xFFFF then [0xE0 + r / 4096, 0x80 + r / 64 % 64, 0x80 + r % 64]
  else [0xF0 + r / 262144, 0x80 + r / 4096 % 64, 0x80 + r / 64 % 64, 0x80 + r % 64]

/-- The bytes of a Go string literal (its UTF-8 encoding). -/
def str (s : String) : Bytes :=
  s.toList.flatMap (fun c => EncodeRune c.toNat)

/-- The table `utf8.first`: information about the first byte of a UTF-8
sequence. `0xF0` is an ASCII byte, `0xF1` an invalid first byte; otherwise the
low three bits are the length of the sequence and the high four bits index
`acceptRanges`. -/
def first (b : Nat) : Nat :=
  if b < 0x80 then 0xF0
  else if b < 0xC2 then 0xF1
  else if b < 0xE0 then 0x02
  else if b = 0xE0 then 0x13
  else if b < 0xED then 0x03
  else if b = 0xED then 0x23
  else if b < 0xF0 then 0x03
  else if b = 0xF0 then 0x34
  else if b < 0xF4 then 0x04
  else if b = 0xF4 then 0x44
  else 0xF1

/-- The table `utf8.acceptRanges`: the accepted range `(lo, hi)` of the second
byte of a sequence. -/
def acceptRanges (i : Nat) : Nat × Nat :=
  match i with
  | 0 => (0x80, 0xBF)
  | 1 => (0xA0, 0xBF)
  | 2 => (0x80, 0x9F)
  | 3 => (0x90, 0xBF)
  | 4 => (0x80, 0x8F)
  | _ => (0, 0)

/-- The lowest continuation byte, `utf8.locb`. -/
def locb : Nat := 0x80

/-- The highest continuation byte, `utf8.hicb`. -/
def hicb : Nat := 0xBF

/-- The function `utf8.DecodeRune` (and `utf8.DecodeRuneInString`): the first
rune of `p` and its width in bytes; `(RuneError, 0)` for the empty string and
`(RuneError, 1)` for an invalid encoding. The masks and shifts of the Go source
are written with `%` and `*`. -/
def DecodeRune (p : Bytes) : Nat × Nat :=
  match p with
  | [] => (RuneError, 0)
  | p0 :: _ =>
    let x := first p0
    if 0xF0 ≤ x then (if x = 0xF0 then p0 else RuneError, 1)
    else
      let sz := x % 8
      let accept := acceptRanges (x / 16)
      if p.length < sz then (RuneError, 1)
      else
        let b1 := p.getD 1 0
        if b1 < accept.1 ∨ accept.2 < b1 then (RuneError, 1)
        else if sz ≤ 2 then (p0 % 32 * 64 + b1 % 64, 2)
        else
          let b2 := p.getD 2 0
          if b2 < locb ∨ hicb < b2 then (RuneError, 1)
          else if sz ≤ 3 then (p0 % 16 * 4096 + b1 % 64 * 64 + b2 % 64, 3)
          else
            let b3 := p.getD 3 0
            if b3 < locb ∨ hicb < b3 then (RuneError, 1)
            else (p0 % 8 * 262144 + b1 % 64 * 4096 + b2 % 64 * 64 + b3 % 64, 4)

/-- The loop of `utf8.Valid` (without its eight-bytes-at-a-time fast path, which
only skips ASCII): `skip` counts the bytes of the current sequence that the
loop steps over with `i += size`. -/
def validLoop : Bytes → Nat → Bool
  | [], _ => true
  | _ :: rest, skip + 1 => validLoop rest skip
  | pi :: rest, 0 =>
    if pi < RuneSelf then validLoop rest 0
    else
      let x := first pi
      if x = 0xF1 then false
      else
        let size := x % 8
        if (pi :: rest).length < size then false
        else
          let accept := acceptRanges (x / 16)
          let c1 := rest.getD 0 0
          let c2 := rest.getD 1 0
          let c3 := rest.getD 2 0
          if c1 < accept.1 ∨ accept.2 < c1 then false
          else if size = 2 then validLoop rest 1
          else if c2 < locb ∨ hicb < c2 then false
          else if size = 3 then validLoop rest 2
          else if c3 < locb ∨ hicb < c3 then false
          else validLoop rest 3

/-- The function `utf8.Valid`: whether `p` consists entirely of valid
UTF-8-encoded runes. -/
def Valid (p : Bytes) : Bool := validLoop p 0

/-- The function `unicode.IsSpace`: the Latin-1 spaces are listed in the Go
source, the others are the `White_Space` table above Latin-1. -/
def IsSpace (r : Nat) : Bool :=
  if r ≤ 0xFF then
    r = 0x09 ∨ r = 0x0A ∨ r = 0x0B ∨ r = 0x0C ∨ r = 0x0D ∨ r = 0x20 ∨ r = 0x85 ∨ r = 0xA0
  else
    r = 0x1680 ∨ (0x2000 ≤ r ∧ r ≤ 0x200A) ∨ (0x2028 ≤ r ∧ r ≤ 0x2029)
      ∨ r = 0x202F ∨ r = 0x205F ∨ r = 0x3000

/-- The loop `for i, r := range s` of `strings.indexFunc`: the byte index of the
first rune `r` of `s` with `f r = truth`. `i` is the index of the head of the
list and `skip` the number of bytes left of the rune decoded last. -/
def indexFuncLoop (f : Nat → Bool) (truth : Bool) : Bytes → Nat → Nat → Option Nat
  | [], _, _ => none
  | _ :: rest, i, skip + 1 => indexFuncLoop f truth rest (i + 1) skip
  | b :: rest, i, 0 =>
    if f (DecodeRune (b :: rest)).1 = truth then some i
    else indexFuncLoop f truth rest (i + 1) ((DecodeRune (b :: rest)).2 - 1)

/-- The function `strings.indexFunc`; `none` stands for `-1`. -/
def indexFunc (s : Bytes) (f : Nat → Bool) (truth : Bool) : Option Nat :=
  indexFuncLoop f truth s 0 0

/-- The function `strings.TrimLeftFunc`: `s` without its leading runes that
satisfy `f`. -/
def TrimLeftFunc (s : Bytes) (f : Nat → Bool) : Bytes :=
  match indexFunc s f false with
  | none => []
  | some i => s.drop i

/-- The function `strings.ContainsFunc`: whether some rune of `s` satisfies `f`. -/
def ContainsFunc (s : Bytes) (f : Nat → Bool) : Bool :=
  (indexFunc s f true).isSome

/-- The function `bytes.TrimPrefix`: `s` without the leading `pre`, or `s`
itself when it does not start with `pre`. -/
def TrimPrefix (s pre : Bytes) : Bytes :=
  if pre.isPrefixOf s then s.drop pre.length else s

/-- The function `strings.Index`: the index of the first instance of `substr`
in `s`; `none` stands for `-1`. -/
def Index : Bytes → Bytes → Option Nat
  | [], substr => if substr.isPrefixOf [] then some 0 else none
  | b :: rest, substr =>
    if substr.isPrefixOf (b :: rest) then some 0
    else (Index rest substr).map (· + 1)

/-- The function `strings.Cut`: `s` around the first instance of `sep`, and
whether `sep` occurs; `(s, "", false)` when it does not. -/
def Cut (s sep : Bytes) : Bytes × Bytes × Bool :=
  match Index s sep with
  | some i => (s.take i, s.drop (i + sep.length), true)
  | none => (s, [], false)

/-- The decimal digits of `n`, as `%d` of `fmt` prints a non-negative `int`. -/
def itoa (n : Nat) : Bytes :=
  (Nat.toDigits 10 n).map Char.toNat

/-! ## The line scanner -/

/-- The constant `bufio.MaxScanTokenSize`: the size of the largest buffer a
`bufio.Scanner` allocates by default. -/
def MaxScanTokenSize : Nat := 64 * 1024

/-- The message of `bufio.ErrTooLong`. -/
def ErrTooLong : Bytes := str "bufio.Scanner: token too long"

/-- The function `dropCR` of `bufio`: drops one terminal carriage return. -/
def dropCR (data : Bytes) : Bytes :=
  if data.getLast? = some 0x0D then data.dropLast else data

/-- The lines of `data` as `bufio.ScanLines` cuts them, before `dropCR`: every
newline ends a line, and what follows the last newline is a line when it is not
empty. -/
def rawLines : Bytes → List Bytes
  | [] => []
  | b :: rest =>
    if b = 0x0A then [] :: rawLines rest
    else
      match rawLines rest with
      | [] => [[b]]
      | l :: ls => (b :: l) :: ls

/-- An `io.Reader`: the bytes it delivers and then the error it reports, `none`
for `io.EOF`. The end (or the error) is reported by a read of its own, after the
last byte, as `os.File`, `bytes.Reader` and `strings.Reader` do. -/
structure Reader where
  data : Bytes
  err : Option Bytes

/-- What a `bufio.Scanner` with the split function `bufio.ScanLines` does with a
reader: the tokens that successive calls of `Scan` produce (`Bytes()` of each),
and `Err()` after `Scan` has returned false. -/
structure Scanner where
  tokens : List Bytes
  err : Option Bytes

/-- The scanner of a reader (`bufio.NewScanner` followed by `Scan` until it
returns false). A line and its newline must fit in the buffer of
`MaxScanTokenSize` bytes (an unterminated last line must leave room for the read
that reports the end): at the first line of `MaxScanTokenSize` bytes or more
`Scan` returns false for good and `Err()` is `ErrTooLong`. A read error ends the
input like `io.EOF` does, the pending unterminated line is still delivered, and
`Err()` is that error. -/
def NewScanner (r : Reader) : Scanner :=
  let raw := rawLines r.data
  let fit := raw.takeWhile (fun l => l.length < MaxScanTokenSize)
  { tokens := fit.map dropCR
    err := if fit.length < raw.length then some ErrTooLong else r.err }

/-! ## The package `envfile` -/

/-- The type `Envs`: an array of strings of the format key=value. -/
abbrev Envs := List Bytes

/-- The method `Envs.Envs`: the iterator over the key-value pairs. The consumer
`yield` is a function of its own state; it returns whether the iteration
continues, and the state after the call. The result is the consumer's state when
the iterator returns. -/
def Envs.Envs {σ : Type} (envs : Envs) (yield : Bytes → Bytes → σ → Bool × σ) (s : σ) : σ :=
  match envs with
  | [] => s
  | line :: rest =>
    let kv := Cut line (str "=")
    let out := yield kv.1 kv.2.1 s
    if !out.1 then out.2 else Envs.Envs rest yield out.2

/-- A full iteration `for key, value := range envs.Envs()` that records every
pair it is handed. -/
def Envs.pairs (envs : Envfile.Envs) : List (Bytes × Bytes) :=
  Envs.Envs envs (fun key value acc => (true, acc ++ [(key, value)])) []

/-- The variable `utf8BOM`. -/
def utf8BOM : Bytes := [0xEF, 0xBB, 0xBF]

/-- The body of the loop `for lineNo := 1; s.Scan(); lineNo++` of `Parse`, over
the tokens the scanner produces; `envs` is the slice built so far. -/
def parseLoop : List Bytes → Nat → Envs → Envs × Option Bytes
  | [], _, envs => (envs, none)
  | b :: rest, lineNo, envs =>
    if !Valid b then
      ([], some (str "invalid UTF-8 bytes at line " ++ itoa lineNo))
    else
      let b := if lineNo = 1 then TrimPrefix b utf8BOM else b
      let line := TrimLeftFunc b IsSpace
      if line.length = 0 ∨ line.head? = some 0x23 then
        parseLoop rest (lineNo + 1) envs
      else
        let key := (Cut line (str "=")).1
        if key.length = 0 then
          ([], some (str "no variable key on line " ++ itoa lineNo))
        else if ContainsFunc key IsSpace then
          ([], some (str "the variable key contains whitespace: " ++ [0x27] ++ key ++ [0x27]))
        else
          parseLoop rest (lineNo + 1) (envs ++ [line])

/-- The function `Parse`: reads data from `r`, parses the content in the
key=value format, and returns an `Envs` and an error. The error of the scanner
(`s.Err()`) is not looked at. -/
def Parse (r : Reader) : Envs × Option Bytes :=
  parseLoop (NewScanner r).tokens 1 []

/-- A Go `map[string]string`, and the process environment: the list of its
entries, at most one for a key; the order of the entries has no meaning. -/
abbrev GoMap := List (Bytes × Bytes)

/-- The value of `m[key]` when `key` is in the map. -/
def GoMap.get (m : GoMap) (key : Bytes) : Option Bytes :=
  (m.find? (fun e => e.1 = key)).map (fun e => e.2)

/-- The assignment `m[key] = value`: the entry of `key` is replaced. -/
def GoMap.set (m : GoMap) (key value : Bytes) : GoMap :=
  (key, value) :: m.filter (fun e => e.1 ≠ key)

/-- The keys of a map. -/
def GoMap.keys (m : GoMap) : List Bytes :=
  m.map (fun e => e.1)

/-- The method `Envs.Map`: converts the array into a `map[string]string`. The
body of its loop always continues. -/
def Envs.Map (envs : Envfile.Envs) : GoMap :=
  Envs.Envs envs (fun key value m => (true, GoMap.set m key value)) []

/-- The function `os.Setenv` of a platform, as far as its result goes: the error
with which it rejects a key and a value, `none` when it accepts them. -/
abbrev SetenvRule := Bytes → Bytes → Option Bytes

/-- The function `os.Setenv` on an explicit environment: a rejected call leaves
the environment as it is and returns the error, an accepted call binds `key`
to `value`. -/
def Setenv (rule : SetenvRule) (key value : Bytes) (env : GoMap) : GoMap × Option Bytes :=
  match rule key value with
  | some e => (env, some e)
  | none => (GoMap.set env key value, none)

/-- The rule of `os.Setenv` on Unix (`syscall.Setenv`): an empty key, a key with
`=` or a NUL byte, and a value with a NUL byte are rejected with `EINVAL`. -/
def unixSetenv : SetenvRule :=
  fun key value =>
    if key = [] ∨ 0x3D ∈ key ∨ 0 ∈ key ∨ 0 ∈ value then some (str "setenv: invalid argument")
    else none

/-- The body of the loop `for key, value := range envs.Envs()` of `LoadEnvs`.
Its state is the environment and the error that the function returns; the
`return err` of the body ends the iteration. -/
def loadEnvsBody (rule : SetenvRule) :
    Bytes → Bytes → GoMap × Option Bytes → Bool × (GoMap × Option Bytes) :=
  fun key value st =>
    let out := Setenv rule key value st.1
    if out.2 ≠ none then (false, out) else (true, (out.1, st.2))

/-- The function `LoadEnvs`: sets environment variables from `envs`. -/
def LoadEnvs (rule : SetenvRule) (envs : Envs) (env : GoMap) : GoMap × Option Bytes :=
  Envs.Envs envs (loadEnvsBody rule) (env, none)

/-- The function `Load`: parses the content of `r` and sets environment
variables. -/
def Load (rule : SetenvRule) (r : Reader) (env : GoMap) : GoMap × Option Bytes :=
  let parsed := Parse r
  if parsed.2 ≠ none then (env, parsed.2)
  else
    let out := LoadEnvs rule parsed.1 env
    if out.2 ≠ none then (out.1, out.2) else (out.1, none)

/-! ## The specification, in the words of the claims -/

/-- The text of line number `lineNo` that is inspected: the line without a UTF-8
BOM when it is line 1, and then without its leading Unicode whitespace. -/
def stripLine (lineNo : Nat) (b : Bytes) : Bytes :=
  TrimLeftFunc (if lineNo = 1 then TrimPrefix b utf8BOM else b) IsSpace

/-- A stripped line that contributes nothing: it is empty or starts with `#`. -/
def isSkipped (line : Bytes) : Bool :=
  line = [] ∨ line.head? = some 0x23

/-- The candidate key of a stripped line: the text before its first `=`, or the
whole line when it has no `=`. -/
def candidateKey (line : Bytes) : Bytes :=
  (Cut line (str "=")).1

/-- A violating line: its bytes are not valid UTF-8, or, once stripped, it is
neither empty nor a comment and its candidate key is empty or contains a
Unicode whitespace character. -/
def violating (lineNo : Nat) (b : Bytes) : Bool :=
  !Valid b ||
    (!isSkipped (stripLine lineNo b) &&
      (candidateKey (stripLine lineNo b) = [] ∨
        ContainsFunc (candidateKey (stripLine lineNo b)) IsSpace))

/-- The lines numbered from `lineNo`, stripped, of which those are kept that are
not empty and do not start with `#`; the order is that of the lines. -/
def keptFrom (lineNo : Nat) (ls : List Bytes) : Envs :=
  ((ls.enumFrom lineNo).map (fun p => stripLine p.1 p.2)).filter (fun l => !isSkipped l)

/-- The kept lines of a file whose first line has number 1. -/
def keptLines (ls : List Bytes) : Envs :=
  keptFrom 1 ls

/-- The lines of a stream, whatever their length: cut at the newlines, each
without its terminal carriage return. -/
def fileLines (data : Bytes) : List Bytes :=
  (rawLines data).map dropCR

/-- The function `strings.Join`: the concatenation of the strings, with `sep`
between them. -/
def Join : List Bytes → Bytes → Bytes
  | [], _ => []
  | [s], _ => s
  | s :: t :: rest, sep => s ++ sep ++ Join (t :: rest) sep

/-- The string `KEY=VALUE` of a pair of a key and a value. -/
def assignment (p : Bytes × Bytes) : Bytes :=
  p.1 ++ str "=" ++ p.2

/-- A line of `n` letters `x`. -/
def xLine (n : Nat) : Bytes :=
  List.replicate n 0x78

/-- A line of `MaxScanTokenSize` letters `x`: the shortest line that does not
fit in the scanner's buffer. -/
def longLine : Bytes :=
  xLine MaxScanTokenSize

/-- The assignment `A=x...x` of 65534 bytes: it fits in the scanner's buffer, and
does not fit any more behind the three bytes of a BOM. -/
def almostLongLine : Bytes :=
  0x41 :: 0x3D :: xLine 65532

/-- The text of the error for a line whose bytes are not valid UTF-8. -/
def errInvalidUTF8 (lineNo : Nat) : Bytes :=
  str "invalid UTF-8 bytes at line " ++ itoa lineNo

/-- The text of the error for a line without a key. -/
def errNoKey (lineNo : Nat) : Bytes :=
  str "no variable key on line " ++ itoa lineNo

/-- The text of the error for a key that contains whitespace. -/
def errKeyWhitespace (key : Bytes) : Bytes :=
  str "the variable key contains whitespace: " ++ [0x27] ++ key ++ [0x27]

/-- The value of the last pair of `ps` with the key `key`. -/
def lastValue (ps : List (Bytes × Bytes)) (key : Bytes) : Option Bytes :=
  (ps.reverse.find? (fun e => e.1 = key)).map (fun e => e.2)

/-- The environment after the pairs were set one after the other. -/
def setAll (ps : List (Bytes × Bytes)) (env : GoMap) : GoMap :=
  ps.foldl (fun m p => GoMap.set m p.1 p.2) env

/-- A consumer that also records the pairs it is called with, in the order of
its calls. -/
def traced {σ : Type} (yield : Bytes → Bytes → σ → Bool × σ) :
    Bytes → Bytes → σ × List (Bytes × Bytes) → Bool × (σ × List (Bytes × Bytes)) :=
  fun key value st =>
    ((yield key value st.1).1, ((yield key value st.1).2, st.2 ++ [(key, value)]))

/-- The stream in which every newline is replaced by a carriage return and a
newline (`bytes.ReplaceAll(data, "\n", "\r\n")`). -/
def crlf : Bytes → Bytes
  | [] => []
  | b :: rest => if b = 0x0A then 0x0D :: 0x0A :: crlf rest else b :: crlf rest

/-- A line of 65535 letters `x`: the longest line that fits in the scanner's
buffer. -/
def fullLine : Bytes :=
  xLine 65535

/-- The lines of a stream as `rawLines` cuts them, each with the mark of whether
a newline ends it: every line but an unterminated last one. -/
def markedLines : Bytes → List (Bytes × Bool)
  | [] => []
  | b :: rest =>
    if b = 0x0A then ([], true) :: markedLines rest
    else
      match markedLines rest with
      | [] => [([b], false)]
      | p :: ps => (b :: p.1, p.2) :: ps

/-! ## The loop of `Parse`, one line at a time -/

theorem parseLoop_nil (n : Nat) (envs : Envs) : parseLoop [] n envs = (envs, none) := by
  simp [parseLoop]

theorem parseLoop_cons_invalid (b : Bytes) (rest : List Bytes) (n : Nat) (envs : Envs)
    (h : Valid b = false) :
    parseLoop (b :: rest) n envs = ([], some (errInvalidUTF8 n)) := by
  simp [parseLoop, h, errInvalidUTF8]

theorem parseLoop_cons_skip (b : Bytes) (rest : List Bytes) (n : Nat) (envs : Envs)
    (hv : Valid b = true) (hs : isSkipped (stripLine n b) = true) :
    parseLoop (b :: rest) n envs = parseLoop rest (n + 1) envs := by
  have hs2 : stripLine n b = [] ∨ (stripLine n b).head? = some 0x23 := by
    simpa [isSkipped] using hs
  rw [parseLoop]
  simp only [hv, Bool.not_true, Bool.false_eq_true, if_false]
  rw [if_pos]
  simpa [stripLine, List.length_eq_zero] using hs2

theorem parseLoop_cons_noKey (b : Bytes) (rest : List Bytes) (n : Nat) (envs : Envs)
    (hv : Valid b = true) (hs : isSkipped (stripLine n b) = false)
    (hk : candidateKey (stripLine n b) = []) :
    parseLoop (b :: rest) n envs = ([], some (errNoKey n)) := by
  have hs2 : ¬ (stripLine n b = [] ∨ (stripLine n b).head? = some 0x23) := by
    simpa [isSkipped] using hs
  rw [parseLoop]
  simp only [hv, Bool.not_true, Bool.false_eq_true, if_false]
  rw [if_neg (by simpa [stripLine, List.length_eq_zero] using hs2)]
  rw [if_pos (by simpa [stripLine, candidateKey, List.length_eq_zero] using hk)]
  rfl

theorem parseLoop_cons_keySpace (b : Bytes) (rest : List Bytes) (n : Nat) (envs : Envs)
    (hv : Valid b = true) (hs : isSkipped (stripLine n b) = false)
    (hk : candidateKey (stripLine n b) ≠ [])
    (hw : ContainsFunc (candidateKey (stripLine n b)) IsSpace = true) :
    parseLoop (b :: rest) n envs
      = ([], some (errKeyWhitespace (candidateKey (stripLine n b)))) := by
  have hs2 : ¬ (stripLine n b = [] ∨ (stripLine n b).head? = some 0x23) := by
    simpa [isSkipped] using hs
  rw [parseLoop]
  simp only [hv, Bool.not_true, Bool.false_eq_true, if_false]
  rw [if_neg (by simpa [stripLine, List.length_eq_zero] using hs2)]
  rw [if_neg (by simpa [stripLine, candidateKey, List.length_eq_zero] using hk)]
  rw [if_pos (by simpa [stripLine, candidateKey] using hw)]
  rfl

theorem parseLoop_cons_keep (b : Bytes) (rest : List Bytes) (n : Nat) (envs : Envs)
    (hv : Valid b = true) (hs : isSkipped (stripLine n b) = false)
    (hk : candidateKey (stripLine n b) ≠ [])
    (hw : ContainsFunc (candidateKey (stripLine n b)) IsSpace = false) :
    parseLoop (b :: rest) n envs = parseLoop rest (n + 1) (envs ++ [stripLine n b]) := by
  have hs2 : ¬ (stripLine n b = [] ∨ (stripLine n b).head? = some 0x23) := by
    simpa [isSkipped] using hs
  rw [parseLoop]
  simp only [hv, Bool.not_true, Bool.false_eq_true, if_false]
  rw [if_neg (by simpa [stripLine, List.length_eq_zero] using hs2)]
  rw [if_neg (by simpa [stripLine, candidateKey, List.length_eq_zero] using hk)]
  rw [if_neg (by simpa [stripLine, candidateKey] using hw)]
  rfl

theorem violating_eq_false_iff (n : Nat) (b : Bytes) :
    violating n b = false ↔
      Valid b = true ∧ (isSkipped (stripLine n b) = true ∨
        (candidateKey (stripLine n b) ≠ [] ∧
          ContainsFunc (candidateKey (stripLine n b)) IsSpace = false)) := by
  unfold violating
  cases Valid b <;> cases isSkipped (stripLine n b) <;>
    cases ContainsFunc (candidateKey (stripLine n b)) IsSpace <;> simp

theorem keptFrom_nil (n : Nat) : keptFrom n [] = [] := by
  simp [keptFrom]

theorem keptFrom_cons (n : Nat) (b : Bytes) (rest : List Bytes) :
    keptFrom n (b :: rest) = keptFrom n [b] ++ keptFrom (n + 1) rest := by
  simp [keptFrom, List.enumFrom, List.filter_cons]
  split <;> simp

theorem keptFrom_single_skip (n : Nat) (b : Bytes) (h : isSkipped (stripLine n b) = true) :
    keptFrom n [b] = [] := by
  simp [keptFrom, List.enumFrom, h]

theorem keptFrom_single_keep (n : Nat) (b : Bytes) (h : isSkipped (stripLine n b) = false) :
    keptFrom n [b] = [stripLine n b] := by
  simp [keptFrom, List.enumFrom, h]

theorem keptFrom_append (n : Nat) (pre rest : List Bytes) :
    keptFrom n (pre ++ rest) = keptFrom n pre ++ keptFrom (n + pre.length) rest := by
  induction pre generalizing n with
  | nil => simp [keptFrom_nil]
  | cons b pre ih =>
    rw [List.cons_append, keptFrom_cons, ih, keptFrom_cons n b pre, List.append_assoc]
    have : n + 1 + pre.length = n + (b :: pre).length := by simp; omega
    rw [this]

theorem parseLoop_cons_ok (b : Bytes) (rest : List Bytes) (n : Nat) (envs : Envs)
    (h : violating n b = false) :
    parseLoop (b :: rest) n envs = parseLoop rest (n + 1) (envs ++ keptFrom n [b]) := by
  obtain ⟨hv, hs | ⟨hk, hw⟩⟩ := (violating_eq_false_iff n b).1 h
  · rw [parseLoop_cons_skip b rest n envs hv hs, keptFrom_single_skip n b hs, List.append_nil]
  · cases hs : isSkipped (stripLine n b) with
    | true => rw [parseLoop_cons_skip b rest n envs hv hs, keptFrom_single_skip n b hs,
        List.append_nil]
    | false => rw [parseLoop_cons_keep b rest n envs hv hs hk hw, keptFrom_single_keep n b hs]

theorem parseLoop_cons_bad (b : Bytes) (rest : List Bytes) (n : Nat) (envs : Envs)
    (h : violating n b = true) :
    ∃ msg, parseLoop (b :: rest) n envs = ([], some msg) := by
  cases hv : Valid b with
  | false => exact ⟨_, parseLoop_cons_invalid b rest n envs hv⟩
  | true =>
    cases hs : isSkipped (stripLine n b) with
    | true => simp [violating, hv, hs] at h
    | false =>
      by_cases hk : candidateKey (stripLine n b) = []
      · exact ⟨_, parseLoop_cons_noKey b rest n envs hv hs hk⟩
      · have hw : ContainsFunc (candidateKey (stripLine n b)) IsSpace = true := by
          simpa [violating, hv, hs, hk] using h
        exact ⟨_, parseLoop_cons_keySpace b rest n envs hv hs hk hw⟩

/-- Lines that are free of violations are passed over: the loop goes on behind
them with the kept ones appended. -/
theorem parseLoop_append_ok (pre rest : List Bytes) (n : Nat) (envs : Envs)
    (h : ∀ i l, pre[i]? = some l → violating (n + i) l = false) :
    parseLoop (pre ++ rest) n envs
      = parseLoop rest (n + pre.length) (envs ++ keptFrom n pre) := by
  induction pre generalizing n envs with
  | nil => simp [keptFrom_nil]
  | cons b pre ih =>
    have hb : violating n b = false := by simpa using h 0 b (by simp)
    have hrest : ∀ i l, pre[i]? = some l → violating (n + 1 + i) l = false := by
      intro i l hi
      have := h (i + 1) l (by simpa using hi)
      rwa [show n + (i + 1) = n + 1 + i by omega] at this
    rw [List.cons_append, parseLoop_cons_ok b (pre ++ rest) n envs hb, ih (n + 1) _ hrest,
      keptFrom_cons n b pre, List.append_assoc]
    have : n + 1 + pre.length = n + (b :: pre).length := by simp; omega
    rw [this]

/-- The two outcomes of the loop: no line violates and every kept line is
appended, or the first violating line ends the loop with an error and no
collection. -/
theorem parseLoop_cases (ls : List Bytes) (n : Nat) (envs : Envs) :
    ((∀ i l, ls[i]? = some l → violating (n + i) l = false) ∧
      parseLoop ls n envs = (envs ++ keptFrom n ls, none)) ∨
    (∃ pre l post msg, ls = pre ++ l :: post ∧
      (∀ i l', pre[i]? = some l' → violating (n + i) l' = false) ∧
      violating (n + pre.length) l = true ∧
      parseLoop ls n envs = ([], some msg)) := by
  induction ls generalizing n envs with
  | nil => left; simp [parseLoop_nil, keptFrom_nil]
  | cons b rest ih =>
    cases hb : violating n b with
    | true =>
      right
      obtain ⟨msg, hmsg⟩ := parseLoop_cons_bad b rest n envs hb
      exact ⟨[], b, rest, msg, by simp, by simp, by simpa using hb, hmsg⟩
    | false =>
      rcases ih (n + 1) (envs ++ keptFrom n [b]) with ⟨hall, hres⟩ | ⟨pre, l, post, msg, hls, hpre, hl, hres⟩
      · left
        refine ⟨?_, ?_⟩
        · intro i l hi
          cases i with
          | zero => simp at hi; subst hi; simpa using hb
          | succ i =>
            have := hall i l (by simpa using hi)
            rwa [show n + 1 + i = n + (i + 1) by omega] at this
        · rw [parseLoop_cons_ok b rest n envs hb, hres, keptFrom_cons n b rest,
            List.append_assoc]
      · right
        refine ⟨b :: pre, l, post, msg, by simp [hls], ?_, ?_, ?_⟩
        · intro i l' hi
          cases i with
          | zero => simp at hi; subst hi; simpa using hb
          | succ i =>
            have := hpre i l' (by simpa using hi)
            rwa [show n + 1 + i = n + (i + 1) by omega] at this
        · rwa [show n + (b :: pre).length = n + 1 + pre.length by simp; omega]
        · rw [parseLoop_cons_ok b rest n envs hb, hres]


/-! ## Facts about the library functions -/

theorem indexFuncLoop_shift (f : Nat → Bool) (t : Bool) (s : Bytes) (i k : Nat) :
    indexFuncLoop f t s i k = (indexFuncLoop f t s 0 k).map (· + i) := by
  induction s generalizing i k with
  | nil => simp [indexFuncLoop]
  | cons b rest ih =>
    cases k with
    | succ k =>
      simp only [indexFuncLoop]
      rw [ih (i + 1) k, ih (0 + 1) k]
      cases indexFuncLoop f t rest 0 k <;> simp; omega
    | zero =>
      simp only [indexFuncLoop]
      split
      · simp
      · rw [ih (i + 1), ih (0 + 1)]
        cases indexFuncLoop f t rest 0 ((DecodeRune (b :: rest)).2 - 1) <;> simp; omega

theorem indexFuncLoop_skip (f : Nat → Bool) (t : Bool) (pre rest : Bytes) (i : Nat) :
    indexFuncLoop f t (pre ++ rest) i pre.length = indexFuncLoop f t rest (i + pre.length) 0 := by
  induction pre generalizing i with
  | nil => simp
  | cons b pre ih =>
    rw [List.cons_append, List.length_cons, indexFuncLoop, ih (i + 1)]
    congr 1; omega

theorem TrimLeftFunc_nil (f : Nat → Bool) : TrimLeftFunc [] f = [] := by
  simp [TrimLeftFunc, indexFunc, indexFuncLoop]

/-- A string whose first rune does not satisfy `f` is left as it is. -/
theorem TrimLeftFunc_of_first (f : Nat → Bool) (b : Nat) (rest : Bytes)
    (h : f (DecodeRune (b :: rest)).1 = false) : TrimLeftFunc (b :: rest) f = b :: rest := by
  simp [TrimLeftFunc, indexFunc, indexFuncLoop, h]

/-- A leading rune that satisfies `f` is removed. -/
theorem TrimLeftFunc_append (f : Nat → Bool) (pre rest : Bytes) (hne : pre ≠ [])
    (hf : f (DecodeRune (pre ++ rest)).1 = true)
    (hw : (DecodeRune (pre ++ rest)).2 = pre.length) :
    TrimLeftFunc (pre ++ rest) f = TrimLeftFunc rest f := by
  obtain ⟨b, pre, rfl⟩ := List.exists_cons_of_ne_nil hne
  have hs := indexFuncLoop_skip f false pre rest (0 + 1)
  simp only [TrimLeftFunc, indexFunc]
  rw [List.cons_append] at hf hw ⊢
  simp only [indexFuncLoop, hf, hw, List.length_cons, Nat.add_sub_cancel]
  simp only [Bool.true_eq_false, if_false]
  rw [hs, indexFuncLoop_shift]
  cases indexFuncLoop f false rest 0 0 with
  | none => simp
  | some j =>
    simp only [Option.map_some']
    rw [show j + (0 + 1 + pre.length) = (pre.length + 1) + j by omega]
    rw [← List.drop_drop]
    simp

theorem ContainsFunc_nil (f : Nat → Bool) : ContainsFunc [] f = false := by
  simp [ContainsFunc, indexFunc, indexFuncLoop]

/-- A string without a rune that satisfies `f` does not start with one. -/
theorem ContainsFunc_first (f : Nat → Bool) (b : Nat) (rest : Bytes)
    (h : ContainsFunc (b :: rest) f = false) : f (DecodeRune (b :: rest)).1 = false := by
  cases hf : f (DecodeRune (b :: rest)).1 with
  | false => rfl
  | true => simp [ContainsFunc, indexFunc, indexFuncLoop, hf] at h

theorem TrimPrefix_append (pre s : Bytes) : TrimPrefix (pre ++ s) pre = s := by
  simp [TrimPrefix]

theorem TrimPrefix_of_not (pre s : Bytes) (h : pre.isPrefixOf s = false) :
    TrimPrefix s pre = s := by
  simp [TrimPrefix, h]


theorem str_eq : str "=" = [0x3D] := by decide

theorem Index_single_of_not_mem (c : Nat) (s : Bytes) (h : c ∉ s) : Index s [c] = none := by
  induction s with
  | nil => simp [Index, List.isPrefixOf]
  | cons b rest ih =>
    have hb : c ≠ b := fun e => h (by simp [e])
    have hr : c ∉ rest := fun e => h (by simp [e])
    simp [Index, List.isPrefixOf, hb, ih hr]

theorem Index_single_append (c : Nat) (k v : Bytes) (h : c ∉ k) :
    Index (k ++ c :: v) [c] = some k.length := by
  induction k with
  | nil => simp [Index, List.isPrefixOf]
  | cons b rest ih =>
    have hb : c ≠ b := fun e => h (by simp [e])
    have hr : c ∉ rest := fun e => h (by simp [e])
    simp [Index, List.isPrefixOf, hb, ih hr]

theorem Cut_of_not_mem (s : Bytes) (h : 0x3D ∉ s) : Cut s (str "=") = (s, [], false) := by
  simp [Cut, str_eq, Index_single_of_not_mem 0x3D s h]

theorem Cut_append (k v : Bytes) (h : 0x3D ∉ k) :
    Cut (k ++ 0x3D :: v) (str "=") = (k, v, true) := by
  simp [Cut, str_eq, Index_single_append 0x3D k v h]

/-- A string has no `c`, or splits at its first `c`. -/
theorem split_at_first (c : Nat) (s : Bytes) :
    c ∉ s ∨ ∃ k v, s = k ++ c :: v ∧ c ∉ k := by
  induction s with
  | nil => left; simp
  | cons b rest ih =>
    by_cases hb : c = b
    · right; exact ⟨[], rest, by simp [hb], by simp⟩
    · rcases ih with h | ⟨k, v, hs, hk⟩
      · left; simp [hb, h]
      · right; exact ⟨b :: k, v, by simp [hs], by simp [hb, hk]⟩

/-- The candidate key is the text before the first `=`: the line is the key
alone, or the key, `=` and a value. -/
theorem candidateKey_split (s : Bytes) :
    (candidateKey s = s ∧ 0x3D ∉ s) ∨
      ∃ v, s = candidateKey s ++ 0x3D :: v ∧ 0x3D ∉ candidateKey s := by
  rcases split_at_first 0x3D s with h | ⟨k, v, hs, hk⟩
  · left; simp [candidateKey, Cut_of_not_mem s h, h]
  · right
    refine ⟨v, ?_, ?_⟩ <;> rw [hs] <;> simp only [candidateKey, Cut_append k v hk]
    exact hk

theorem rawLines_eq_nil (s : Bytes) : rawLines s = [] ↔ s = [] := by
  cases s with
  | nil => simp [rawLines]
  | cons b rest =>
    simp only [rawLines]
    split
    · simp
    · split <;> simp

theorem rawLines_append_newline (l rest : Bytes) (h : 0x0A ∉ l) :
    rawLines (l ++ 0x0A :: rest) = l :: rawLines rest := by
  induction l with
  | nil => simp [rawLines]
  | cons b l ih =>
    have hb : b ≠ 0x0A := fun e => h (by simp [e])
    have hr : 0x0A ∉ l := fun e => h (by simp [e])
    simp [rawLines, hb, ih hr]

theorem rawLines_single (l : Bytes) (hne : l ≠ []) (h : 0x0A ∉ l) : rawLines l = [l] := by
  induction l with
  | nil => exact absurd rfl hne
  | cons b l ih =>
    have hb : b ≠ 0x0A := fun e => h (by simp [e])
    have hr : 0x0A ∉ l := fun e => h (by simp [e])
    cases l with
    | nil => simp [rawLines, hb]
    | cons c l =>
      have hc := ih (by simp) hr
      rw [rawLines, if_neg hb, hc]

/-- Bytes without a newline put before a stream join its first line. -/
theorem rawLines_prepend (pre s l : Bytes) (ls : List Bytes) (h : 0x0A ∉ pre)
    (hs : rawLines s = l :: ls) : rawLines (pre ++ s) = (pre ++ l) :: ls := by
  induction pre with
  | nil => simpa using hs
  | cons b pre ih =>
    have hb : b ≠ 0x0A := fun e => h (by simp [e])
    have hr : 0x0A ∉ pre := fun e => h (by simp [e])
    simp [rawLines, hb, ih hr]

/-- The first line of a stream is a prefix of the stream. -/
theorem rawLines_head_initial (s l : Bytes) (ls : List Bytes) (hs : rawLines s = l :: ls) :
    l <+: s := by
  induction s generalizing l ls with
  | nil => simp [rawLines] at hs
  | cons b rest ih =>
    simp only [rawLines] at hs
    split at hs
    · simp at hs; rw [hs.1]; exact List.nil_prefix
    · split at hs
      · simp at hs; rw [← hs.1]
        rename_i h0
        rw [(rawLines_eq_nil rest).1 h0]
      · rename_i l0 ls0 h0
        simp at hs
        rw [← hs.1]
        exact (List.prefix_cons_inj b).2 (ih l0 ls0 h0)

theorem dropCR_of_last (l : Bytes) (h : l.getLast? ≠ some 0x0D) : dropCR l = l := by
  simp [dropCR, h]

theorem dropCR_initial (l : Bytes) : dropCR l <+: l := by
  unfold dropCR
  split
  · exact List.dropLast_prefix l
  · exact List.prefix_refl l

theorem dropCR_append (pre l : Bytes) (hne : l ≠ []) :
    dropCR (pre ++ l) = pre ++ dropCR l := by
  unfold dropCR
  rw [List.getLast?_append_of_ne_nil pre hne]
  split
  · rw [List.dropLast_append_of_ne_nil pre hne]
  · rfl

theorem dropCR_utf8BOM : dropCR utf8BOM = utf8BOM := by decide

theorem Valid_utf8BOM_append (l : Bytes) : Valid (utf8BOM ++ l) = Valid l := by
  simp [Valid, utf8BOM, validLoop, RuneSelf, first, acceptRanges, locb, hicb]

theorem Valid_cons_ascii (b : Nat) (p : Bytes) (h : b < 0x80) : Valid (b :: p) = Valid p := by
  simp [Valid, validLoop, RuneSelf, h]

theorem Valid_replicate_ascii (b n : Nat) (h : b < 0x80) : Valid (List.replicate n b) = true := by
  induction n with
  | zero => simp [Valid, validLoop]
  | succ n ih => rw [List.replicate_succ, Valid_cons_ascii b _ h, ih]


theorem DecodeRune_ascii (b : Nat) (t : Bytes) (h : b < 0x80) : DecodeRune (b :: t) = (b, 1) := by
  simp [DecodeRune, first, h]

theorem DecodeRune_utf8BOM (t : Bytes) : DecodeRune (utf8BOM ++ t) = (0xFEFF, 3) := by
  simp [DecodeRune, utf8BOM, first, acceptRanges, locb, hicb]

/-- The whitespace runes, one by one. -/
theorem IsSpace_cases (r : Nat) (h : IsSpace r = true) :
    r ∈ [0x09, 0x0A, 0x0B, 0x0C, 0x0D, 0x20, 0x85, 0xA0, 0x1680, 0x2000, 0x2001, 0x2002,
      0x2003, 0x2004, 0x2005, 0x2006, 0x2007, 0x2008, 0x2009, 0x200A, 0x2028, 0x2029,
      0x202F, 0x205F, 0x3000] := by
  unfold IsSpace at h
  split at h
  · simp at h
    rcases h with h | h | h | h | h | h | h | h <;> simp [h]
  · simp at h
    rcases h with h | ⟨h1, h2⟩ | ⟨h1, h2⟩ | h | h | h
    · simp [h]
    · interval_cases r <;> simp
    · interval_cases r <;> simp
    · simp [h]
    · simp [h]
    · simp [h]

/-- An encoded whitespace rune in front of any bytes is decoded as itself. -/
theorem DecodeRune_EncodeRune_space (r : Nat) (t : Bytes) (h : IsSpace r = true) :
    DecodeRune (EncodeRune r ++ t) = (r, (EncodeRune r).length) ∧ EncodeRune r ≠ [] ∧
      (EncodeRune r ++ t).head? ≠ some 0xEF := by
  have hr := IsSpace_cases r h
  simp only [List.mem_cons, List.mem_singleton, List.not_mem_nil, or_false] at hr
  rcases hr with h | h | h | h | h | h | h | h | h | h | h | h | h | h | h | h | h | h | h | h
      | h | h | h | h | h <;>
    subst h <;>
    simp [EncodeRune, DecodeRune, first, acceptRanges, locb, hicb, MaxRune]


theorem first_cases (a : Nat) :
    first a = 0xF0 ∨ first a = 0xF1 ∨ first a = 0x02 ∨ first a = 0x13 ∨ first a = 0x03 ∨
      first a = 0x23 ∨ first a = 0x34 ∨ first a = 0x04 ∨ first a = 0x44 := by
  unfold first
  split_ifs <;> simp

theorem IsSpace_RuneError : IsSpace RuneError = false := by decide

/-- The first rune of a key that is followed by `=` is the first rune of the key
alone, as far as being whitespace goes: `=` continues no sequence. -/
theorem IsSpace_DecodeRune_key (k v : Bytes) (hne : k ≠ [])
    (h : IsSpace (DecodeRune k).1 = false) :
    IsSpace (DecodeRune (k ++ 0x3D :: v)).1 = false := by
  rcases k with _ | ⟨a, k⟩
  · exact absurd rfl hne
  have hRE := IsSpace_RuneError
  rcases first_cases a with hx | hx | hx | hx | hx | hx | hx | hx | hx <;>
    rcases k with _ | ⟨b, _ | ⟨c, _ | ⟨d, k⟩⟩⟩ <;>
    simp [DecodeRune, hx, acceptRanges, locb, hicb, hRE] at h ⊢ <;>
    exact h


/-! ## Facts about the scanner -/

theorem takeWhile_take {α : Type} (p : α → Bool) (R : List α) (n : Nat)
    (h : ∀ x ∈ R.take n, p x = true) : (R.takeWhile p).take n = R.take n := by
  induction R generalizing n with
  | nil => simp
  | cons a R ih =>
    cases n with
    | zero => simp
    | succ n =>
      have ha : p a = true := h a (by simp)
      have hr : ∀ x ∈ R.take n, p x = true := fun x hx => h x (by simp [hx])
      simp [List.takeWhile_cons, ha, ih n hr]

/-- The tokens of the scanner are the first lines of the stream. -/
theorem tokens_initial (r : Reader) : (NewScanner r).tokens <+: fileLines r.data := by
  simp only [NewScanner, fileLines]
  exact List.IsPrefix.map dropCR (List.takeWhile_prefix _)

theorem tokens_getElem? (r : Reader) (i : Nat) (l : Bytes)
    (h : (NewScanner r).tokens[i]? = some l) : (fileLines r.data)[i]? = some l := by
  obtain ⟨t, ht⟩ := tokens_initial r
  rw [← ht]
  have hi : i < (NewScanner r).tokens.length := by
    by_contra hc
    rw [List.getElem?_eq_none (by omega)] at h
    cases h
  rw [List.getElem?_append_left hi]
  exact h

/-- When every line fits in the buffer, the scanner delivers all of them. -/
theorem tokens_eq_fileLines (r : Reader)
    (h : ∀ x ∈ rawLines r.data, x.length < MaxScanTokenSize) :
    (NewScanner r).tokens = fileLines r.data := by
  simp only [NewScanner, fileLines]
  congr 1
  rw [List.takeWhile_eq_self_iff]
  intro x hx
  simpa using h x hx

/-- When the first lines fit in the buffer, the scanner delivers them. -/
theorem tokens_of_fit (r : Reader) (pre post : List Bytes) (l : Bytes)
    (h : fileLines r.data = pre ++ l :: post)
    (hfit : ∀ x ∈ (rawLines r.data).take (pre.length + 1), x.length < MaxScanTokenSize) :
    ∃ post', (NewScanner r).tokens = pre ++ l :: post' := by
  refine ⟨(NewScanner r).tokens.drop (pre.length + 1), ?_⟩
  have hfit2 : ∀ x ∈ (rawLines r.data).take (pre.length + 1),
      (fun l : Bytes => decide (l.length < MaxScanTokenSize)) x = true := by
    intro x hx
    simpa using hfit x hx
  have htake : (NewScanner r).tokens.take (pre.length + 1) = pre ++ [l] := by
    simp only [NewScanner]
    rw [← List.map_take, takeWhile_take _ _ _ hfit2, List.map_take]
    have : List.map dropCR (rawLines r.data) = pre ++ l :: post := h
    rw [this, List.take_append_eq_append_take]
    simp
  calc (NewScanner r).tokens
      = (NewScanner r).tokens.take (pre.length + 1)
          ++ (NewScanner r).tokens.drop (pre.length + 1) := (List.take_append_drop _ _).symm
    _ = pre ++ l :: (NewScanner r).tokens.drop (pre.length + 1) := by
        rw [htake]; simp

/-- A first line that does not fit in the buffer stops the scanner at once. -/
theorem tokens_of_long_head (r : Reader) (l : Bytes) (ls : List Bytes)
    (h : rawLines r.data = l :: ls) (hl : MaxScanTokenSize ≤ l.length) :
    (NewScanner r).tokens = [] := by
  have : ¬ l.length < MaxScanTokenSize := by omega
  simp [NewScanner, h, List.takeWhile_cons, this]

theorem rawLines_Join (strs : List Bytes) (h : ∀ s ∈ strs, s ≠ [] ∧ 0x0A ∉ s) :
    rawLines (Join strs [0x0A]) = strs := by
  induction strs with
  | nil => simp [Join, rawLines]
  | cons s rest ih =>
    have hs := h s (by simp)
    have hrest : ∀ t ∈ rest, t ≠ [] ∧ 0x0A ∉ t := fun t ht => h t (by simp [ht])
    cases rest with
    | nil => simpa [Join] using rawLines_single s hs.1 hs.2
    | cons t rest =>
      rw [Join, List.append_assoc, List.singleton_append, rawLines_append_newline s _ hs.2,
        ih hrest]


/-! ## Facts about single lines -/

/-- A line whose key is not empty and has no whitespace has no leading
whitespace to remove. -/
theorem TrimLeftFunc_of_key (s : Bytes) (hk : candidateKey s ≠ [])
    (hw : ContainsFunc (candidateKey s) IsSpace = false) : TrimLeftFunc s IsSpace = s := by
  obtain ⟨a, k, hak⟩ := List.exists_cons_of_ne_nil hk
  have hfirst : IsSpace (DecodeRune (candidateKey s)).1 = false := by
    rw [hak] at hw ⊢
    exact ContainsFunc_first IsSpace a k hw
  rcases candidateKey_split s with ⟨hs, _⟩ | ⟨v, hs, _⟩
  · rw [hs] at hak hfirst
    rw [hak] at hfirst ⊢
    exact TrimLeftFunc_of_first IsSpace a k hfirst
  · have h2 := IsSpace_DecodeRune_key (candidateKey s) v hk hfirst
    rw [← hs] at h2
    rw [hak, List.cons_append] at hs
    rw [hs] at h2 ⊢
    exact TrimLeftFunc_of_first IsSpace a _ h2

theorem stripLine_of_key (n : Nat) (s : Bytes) (hk : candidateKey s ≠ [])
    (hw : ContainsFunc (candidateKey s) IsSpace = false)
    (hb : n = 1 → utf8BOM.isPrefixOf s = false) : stripLine n s = s := by
  unfold stripLine
  by_cases hn : n = 1
  · rw [if_pos hn, TrimPrefix_of_not _ _ (hb hn)]
    exact TrimLeftFunc_of_key s hk hw
  · rw [if_neg hn]
    exact TrimLeftFunc_of_key s hk hw

theorem candidateKey_nil : candidateKey [] = [] := by decide

/-- Lines that are assignments as they stand are all kept, unchanged. -/
theorem parseLoop_assignments (ls : List Bytes) (n : Nat) (envs : Envs) (hn : 1 ≤ n)
    (hkey : ∀ s ∈ ls, candidateKey s ≠ [] ∧ ContainsFunc (candidateKey s) IsSpace = false)
    (hvalid : ∀ s ∈ ls, Valid s = true)
    (hhash : ∀ s ∈ ls, s.head? ≠ some 0x23)
    (hbom : n = 1 → ∀ s, ls.head? = some s → utf8BOM.isPrefixOf s = false) :
    parseLoop ls n envs = (envs ++ ls, none) := by
  induction ls generalizing n envs with
  | nil => simp [parseLoop_nil]
  | cons s rest ih =>
    have hk := hkey s (by simp)
    have hstrip : stripLine n s = s :=
      stripLine_of_key n s hk.1 hk.2 (fun h1 => hbom h1 s (by simp))
    have hne : s ≠ [] := fun h0 => hk.1 (by rw [h0]; exact candidateKey_nil)
    have hskip : isSkipped (stripLine n s) = false := by
      rw [hstrip]
      simp [isSkipped, hne, hhash s (by simp)]
    rw [parseLoop_cons_keep s rest n envs (hvalid s (by simp)) hskip
      (by rw [hstrip]; exact hk.1) (by rw [hstrip]; exact hk.2), hstrip]
    rw [ih (n + 1) (envs ++ [s]) (by omega) (fun t ht => hkey t (by simp [ht]))
      (fun t ht => hvalid t (by simp [ht])) (fun t ht => hhash t (by simp [ht]))
      (fun h1 => by omega)]
    simp

theorem Parse_eq (r : Reader) : Parse r = parseLoop (NewScanner r).tokens 1 [] := rfl

theorem ContainsFunc_cons_ascii (b : Nat) (t : Bytes) (h : b < 0x80)
    (hb : IsSpace b = false) : ContainsFunc (b :: t) IsSpace = ContainsFunc t IsSpace := by
  simp only [ContainsFunc, indexFunc, indexFuncLoop, DecodeRune_ascii b t h, hb]
  rw [indexFuncLoop_shift]
  cases indexFuncLoop IsSpace true t 0 0 <;> simp

theorem xLine_succ (n : Nat) : xLine (n + 1) = 0x78 :: xLine n := by
  simp [xLine, List.replicate_succ]

theorem xLine_length (n : Nat) : (xLine n).length = n := by
  simp [xLine]

theorem xLine_mem (n b : Nat) (h : b ∈ xLine n) : b = 0x78 := by
  exact List.eq_of_mem_replicate h

theorem xLine_ne_nil (n : Nat) (h : 0 < n) : xLine n ≠ [] := by
  intro h0
  have := xLine_length n
  rw [h0] at this
  simp at this
  omega

theorem xLine_valid (n : Nat) : Valid (xLine n) = true :=
  Valid_replicate_ascii 0x78 n (by decide)

theorem xLine_not_mem (n c : Nat) (hc : c ≠ 0x78) : c ∉ xLine n :=
  fun h => hc (xLine_mem n c h)

theorem xLine_dropCR (n : Nat) : dropCR (xLine n) = xLine n := by
  apply dropCR_of_last
  intro h
  have := xLine_mem n _ (List.mem_of_getLast?_eq_some h)
  omega

theorem xLine_containsFunc (n : Nat) : ContainsFunc (xLine n) IsSpace = false := by
  induction n with
  | zero => exact ContainsFunc_nil IsSpace
  | succ n ih => rw [xLine_succ, ContainsFunc_cons_ascii _ _ (by decide) (by decide), ih]

theorem xLine_candidateKey (n : Nat) : candidateKey (xLine n) = xLine n := by
  simp [candidateKey, Cut_of_not_mem _ (xLine_not_mem n 0x3D (by decide))]

theorem xLine_stripLine (k n : Nat) (h : 0 < n) : stripLine k (xLine n) = xLine n := by
  apply stripLine_of_key
  · rw [xLine_candidateKey]; exact xLine_ne_nil n h
  · rw [xLine_candidateKey]; exact xLine_containsFunc n
  · intro _
    obtain ⟨m, rfl⟩ : ∃ m, n = m + 1 := ⟨n - 1, by omega⟩
    rw [xLine_succ]
    simp [utf8BOM, List.isPrefixOf]

theorem xLine_isSkipped (k n : Nat) (h : 0 < n) : isSkipped (stripLine k (xLine n)) = false := by
  rw [xLine_stripLine k n h]
  obtain ⟨m, rfl⟩ : ∃ m, n = m + 1 := ⟨n - 1, by omega⟩
  rw [xLine_succ]
  simp [isSkipped]

theorem xLine_violating (k n : Nat) (h : 0 < n) : violating k (xLine n) = false := by
  rw [violating_eq_false_iff]
  refine ⟨xLine_valid n, Or.inr ⟨?_, ?_⟩⟩
  · rw [xLine_stripLine k n h, xLine_candidateKey]; exact xLine_ne_nil n h
  · rw [xLine_stripLine k n h, xLine_candidateKey]; exact xLine_containsFunc n

theorem longLine_length : longLine.length = MaxScanTokenSize := xLine_length _

theorem MaxScanTokenSize_pos : 0 < MaxScanTokenSize := by decide

/-- The lines of a stream that starts with a line of letters `x`. -/
theorem rawLines_xLine_newline (n : Nat) (rest : Bytes) :
    rawLines (xLine n ++ 0x0A :: rest) = xLine n :: rawLines rest :=
  rawLines_append_newline _ _ (xLine_not_mem n 0x0A (by decide))

/-- A stream that starts with a line too long for the buffer: `Parse` returns
no collection and no error. -/
theorem Parse_longLine (rest : Bytes) (e : Option Bytes) :
    Parse ⟨longLine ++ 0x0A :: rest, e⟩ = ([], none) := by
  rw [Parse_eq, tokens_of_long_head _ longLine (rawLines rest)
    (rawLines_xLine_newline _ rest) (by rw [longLine_length]), parseLoop_nil]

theorem fileLines_longLine_newline (rest : Bytes) :
    fileLines (longLine ++ 0x0A :: rest) = longLine :: fileLines rest := by
  simp only [fileLines, longLine, rawLines_xLine_newline, List.map_cons, xLine_dropCR]

theorem fileLines_nil : fileLines [] = [] := by
  simp [fileLines, rawLines]

theorem keptLines_longLine : keptLines [longLine] = [longLine] := by
  rw [keptLines, keptFrom_single_keep 1 longLine (xLine_isSkipped 1 _ MaxScanTokenSize_pos)]
  rw [longLine, xLine_stripLine 1 _ MaxScanTokenSize_pos]

/-- The result of `Parse` in terms of the lines the scanner delivers. -/
theorem Parse_cases (r : Reader) :
    ((∀ i l, (NewScanner r).tokens[i]? = some l → violating (i + 1) l = false) ∧
      Parse r = (keptLines (NewScanner r).tokens, none)) ∨
    (∃ pre l post msg, (NewScanner r).tokens = pre ++ l :: post ∧
      (∀ i l', pre[i]? = some l' → violating (i + 1) l' = false) ∧
      violating (pre.length + 1) l = true ∧
      Parse r = ([], some msg)) := by
  rcases parseLoop_cases (NewScanner r).tokens 1 [] with ⟨h1, h2⟩ | ⟨pre, l, post, msg, h1, h2, h3, h4⟩
  · left
    refine ⟨fun i l hi => ?_, by simpa [Parse_eq, keptLines] using h2⟩
    have := h1 i l hi
    rwa [Nat.add_comm] at this
  · right
    refine ⟨pre, l, post, msg, h1, fun i l' hi => ?_, ?_, h4⟩
    · have := h2 i l' hi
      rwa [Nat.add_comm] at this
    · rwa [Nat.add_comm] at h3

/-- An error of `Parse` comes from a violating line among the lines read. -/
theorem Parse_error_line (r : Reader) (h : (Parse r).2 ≠ none) :
    ∃ i l, (fileLines r.data)[i]? = some l ∧ violating (i + 1) l = true := by
  rcases Parse_cases r with ⟨_, h2⟩ | ⟨pre, l, post, msg, h1, _, h3, _⟩
  · rw [h2] at h
    exact absurd rfl h
  · refine ⟨pre.length, l, tokens_getElem? r _ _ ?_, h3⟩
    rw [h1, List.getElem?_append_right (le_refl _)]
    simp

/-- The loop of `Parse` when it reaches a line of a stream whose lines so far
fit in the buffer and are free of violations. -/
theorem Parse_at_line (r : Reader) (pre post : List Bytes) (l : Bytes)
    (h : fileLines r.data = pre ++ l :: post)
    (hfit : ∀ x ∈ (rawLines r.data).take (pre.length + 1), x.length < MaxScanTokenSize)
    (hpre : ∀ i l', pre[i]? = some l' → violating (i + 1) l' = false) :
    ∃ post', Parse r = parseLoop (l :: post') (pre.length + 1) (keptFrom 1 pre) := by
  obtain ⟨post', ht⟩ := tokens_of_fit r pre post l h hfit
  refine ⟨post', ?_⟩
  rw [Parse_eq, ht, parseLoop_append_ok pre (l :: post') 1 []
    (fun i l' hi => by rw [Nat.add_comm]; exact hpre i l' hi)]
  rw [Nat.add_comm 1 pre.length, List.nil_append]

/-- A line that starts with `=` once its leading whitespace is removed does not
start with the UTF-8 BOM. -/
theorem stripLine_of_eq_head (n : Nat) (l : Bytes)
    (h : (TrimLeftFunc l IsSpace).head? = some 0x3D) :
    stripLine n l = TrimLeftFunc l IsSpace := by
  unfold stripLine
  split
  · cases hp : utf8BOM.isPrefixOf l with
    | false => rw [TrimPrefix_of_not _ _ hp]
    | true =>
      obtain ⟨t, ht⟩ := List.isPrefixOf_iff_prefix.1 hp
      have hd : IsSpace (DecodeRune (utf8BOM ++ t)).1 = false := by
        rw [DecodeRune_utf8BOM]; decide
      rw [← ht] at h
      have : TrimLeftFunc (utf8BOM ++ t) IsSpace = utf8BOM ++ t :=
        TrimLeftFunc_of_first IsSpace 0xEF (0xBB :: 0xBF :: t) hd
      rw [this] at h
      simp [utf8BOM] at h
  · rfl

theorem candidateKey_of_eq_head (s : Bytes) (h : s.head? = some 0x3D) :
    candidateKey s = [] := by
  cases s with
  | nil => simp at h
  | cons b v =>
    simp at h
    subst h
    have := Cut_append [] v (by simp)
    simpa [candidateKey] using congrArg Prod.fst this

theorem longLine_violating_before :
    ∀ i l', [longLine][i]? = some l' → violating (i + 1) l' = false := by
  intro i l' hi
  cases i with
  | zero =>
    simp at hi
    rw [← hi]
    exact xLine_violating 1 _ MaxScanTokenSize_pos
  | succ i => simp at hi

theorem before_of_enumFrom (pre : List Bytes) (n : Nat)
    (h : ∀ p ∈ pre.enumFrom n, violating p.1 p.2 = false) :
    ∀ i l', pre[i]? = some l' → violating (n + i) l' = false := by
  induction pre generalizing n with
  | nil => intro i l' hi; simp at hi
  | cons b pre ih =>
    intro i l' hi
    cases i with
    | zero =>
      simp at hi
      subst hi
      exact h (n, b) (by simp [List.enumFrom])
    | succ i =>
      have := ih (n + 1) (fun p hp => h p (by simp [List.enumFrom, hp])) i l' (by simpa using hi)
      rwa [show n + 1 + i = n + (i + 1) by omega] at this

/-- The lines of `pre`, numbered from 1, are free of violations: a form of the
statement that can be evaluated. -/
theorem before_of_all (pre : List Bytes)
    (h : ∀ p ∈ pre.enumFrom 1, violating p.1 p.2 = false) :
    ∀ i l', pre[i]? = some l' → violating (i + 1) l' = false := by
  intro i l' hi
  have := before_of_enumFrom pre 1 h i l' hi
  rwa [Nat.add_comm] at this

/-- The scanner delivers assignments that are joined by newlines one by one, and
`Parse` keeps them all. -/
theorem Parse_Join (strs : List Bytes) (e : Option Bytes)
    (hkey : ∀ s ∈ strs, candidateKey s ≠ [] ∧ ContainsFunc (candidateKey s) IsSpace = false)
    (hvalid : ∀ s ∈ strs, Valid s = true)
    (hnl : ∀ s ∈ strs, 0x0A ∉ s)
    (hcr : ∀ s ∈ strs, s.getLast? ≠ some 0x0D)
    (hhash : ∀ s ∈ strs, s.head? ≠ some 0x23)
    (hlen : ∀ s ∈ strs, s.length < MaxScanTokenSize)
    (hbom : ∀ s, strs.head? = some s → utf8BOM.isPrefixOf s = false) :
    Parse ⟨Join strs [0x0A], e⟩ = (strs, none) ∧
      Envs.pairs (Parse ⟨Join strs [0x0A], e⟩).1 = Envs.pairs strs := by
  have hne : ∀ s ∈ strs, s ≠ [] ∧ 0x0A ∉ s := fun s hs =>
    ⟨fun h0 => (hkey s hs).1 (by rw [h0]; exact candidateKey_nil), hnl s hs⟩
  have hraw : rawLines (Join strs [0x0A]) = strs := rawLines_Join strs hne
  have htok : (NewScanner ⟨Join strs [0x0A], e⟩).tokens = strs := by
    rw [tokens_eq_fileLines _ (by rw [hraw]; exact hlen)]
    simp only [fileLines, hraw]
    conv_rhs => rw [← List.map_id strs]
    exact List.map_congr_left (fun s hs => dropCR_of_last s (hcr s hs))
  have hparse : Parse ⟨Join strs [0x0A], e⟩ = (strs, none) := by
    rw [Parse_eq, htok, parseLoop_assignments strs 1 [] (le_refl 1) hkey hvalid hhash
      (fun _ => hbom)]
    simp
  exact ⟨hparse, by rw [hparse]⟩


theorem Parse_err_irrelevant (d : Bytes) (e : Option Bytes) :
    Parse ⟨d, e⟩ = Parse ⟨d, none⟩ := rfl

theorem TrimLeftFunc_spaces (ws : List Nat) (rest : Bytes) (h : ∀ w ∈ ws, IsSpace w = true) :
    TrimLeftFunc (ws.flatMap EncodeRune ++ rest) IsSpace = TrimLeftFunc rest IsSpace := by
  induction ws with
  | nil => simp
  | cons w ws ih =>
    have hw := DecodeRune_EncodeRune_space w (ws.flatMap EncodeRune ++ rest) (h w (by simp))
    rw [List.flatMap_cons, List.append_assoc,
      TrimLeftFunc_append IsSpace _ _ hw.2.1 (by rw [hw.1]; exact h w (by simp)) (by rw [hw.1]),
      ih (fun v hv => h v (by simp [hv]))]

theorem isPrefixOf_utf8BOM_of_head (l : Bytes) (h : l.head? ≠ some 0xEF) :
    utf8BOM.isPrefixOf l = false := by
  cases l with
  | nil => simp [utf8BOM, List.isPrefixOf]
  | cons b t =>
    have hb : b ≠ 0xEF := by simpa using h
    have hb2 : ¬ (0xEF = b) := fun e => hb e.symm
    simp [utf8BOM, List.isPrefixOf, hb2]

/-- A blank line and a comment, with any leading whitespace, are skipped. -/
theorem isSkipped_blank_comment (n : Nat) (ws : List Nat) (rest : Bytes)
    (h : ∀ w ∈ ws, IsSpace w = true) (hr : rest = [] ∨ rest.head? = some 0x23) :
    isSkipped (stripLine n (ws.flatMap EncodeRune ++ rest)) = true := by
  have hhead : (ws.flatMap EncodeRune ++ rest).head? ≠ some 0xEF := by
    cases ws with
    | nil =>
      rcases hr with hr | hr
      · simp [hr]
      · simp [hr]
    | cons w ws =>
      rw [List.flatMap_cons, List.append_assoc]
      exact (DecodeRune_EncodeRune_space w _ (h w (by simp))).2.2
  have hstrip : stripLine n (ws.flatMap EncodeRune ++ rest) = TrimLeftFunc rest IsSpace := by
    unfold stripLine
    rw [TrimPrefix_of_not _ _ (isPrefixOf_utf8BOM_of_head _ hhead), ite_self,
      TrimLeftFunc_spaces ws rest h]
  rw [hstrip]
  rcases hr with hr | hr
  · rw [hr, TrimLeftFunc_nil]; decide
  · cases rest with
    | nil => simp at hr
    | cons b t =>
      simp at hr
      subst hr
      rw [TrimLeftFunc_of_first IsSpace 0x23 t (by rw [DecodeRune_ascii _ _ (by decide)]; decide)]
      simp [isSkipped]

theorem parseLoop_all_skipped (ls : List Bytes) (n : Nat) (envs : Envs)
    (h : ∀ l ∈ ls, Valid l = true ∧ ∀ k, isSkipped (stripLine k l) = true) :
    parseLoop ls n envs = (envs, none) := by
  induction ls generalizing n with
  | nil => exact parseLoop_nil n envs
  | cons b rest ih =>
    have hb := h b (by simp)
    rw [parseLoop_cons_skip b rest n envs hb.1 (hb.2 n)]
    exact ih (n + 1) (fun l hl => h l (by simp [hl]))

/-- The loop of `Parse` looks at a line through its validity and its stripped
text only. -/
theorem parseLoop_cons_congr (b c : Bytes) (rest : List Bytes) (n : Nat) (envs : Envs)
    (hv : Valid b = Valid c) (hs : stripLine n b = stripLine n c) :
    parseLoop (b :: rest) n envs = parseLoop (c :: rest) n envs := by
  cases hb : violating n b with
  | false =>
    have hc : violating n c = false := by
      rw [violating_eq_false_iff] at hb ⊢
      rwa [← hv, ← hs]
    rw [parseLoop_cons_ok b rest n envs hb, parseLoop_cons_ok c rest n envs hc]
    simp [keptFrom, List.enumFrom, hs]
  | true =>
    cases hvb : Valid b with
    | false =>
      rw [parseLoop_cons_invalid b rest n envs hvb,
        parseLoop_cons_invalid c rest n envs (by rw [← hv]; exact hvb)]
    | true =>
      have hvc : Valid c = true := by rw [← hv]; exact hvb
      cases hsb : isSkipped (stripLine n b) with
      | true => simp [violating, hvb, hsb] at hb
      | false =>
        by_cases hk : candidateKey (stripLine n b) = []
        · rw [parseLoop_cons_noKey b rest n envs hvb hsb hk,
            parseLoop_cons_noKey c rest n envs hvc (by rw [← hs]; exact hsb)
              (by rw [← hs]; exact hk)]
        · have hw : ContainsFunc (candidateKey (stripLine n b)) IsSpace = true := by
            simpa [violating, hvb, hsb, hk] using hb
          rw [parseLoop_cons_keySpace b rest n envs hvb hsb hk hw,
            parseLoop_cons_keySpace c rest n envs hvc (by rw [← hs]; exact hsb)
              (by rw [← hs]; exact hk) (by rw [← hs]; exact hw), hs]

theorem MaxScanTokenSize_eq : MaxScanTokenSize = 65536 := by decide

theorem almostLongLine_length : almostLongLine.length = 65534 := by
  rw [almostLongLine, List.length_cons, List.length_cons, xLine_length]

theorem almostLongLine_mem (b : Nat) (h : b ∈ almostLongLine) :
    b = 0x41 ∨ b = 0x3D ∨ b = 0x78 := by
  simp only [almostLongLine, List.mem_cons] at h
  rcases h with h | h | h
  · exact Or.inl h
  · exact Or.inr (Or.inl h)
  · exact Or.inr (Or.inr (xLine_mem _ _ h))

theorem almostLongLine_candidateKey : candidateKey almostLongLine = [0x41] := by
  have := Cut_append [0x41] (xLine 65532) (by simp)
  simpa [candidateKey, almostLongLine] using congrArg Prod.fst this

/-- The assignment of 65534 bytes is parsed as it stands. -/
theorem Parse_almostLongLine : Parse ⟨almostLongLine, none⟩ = ([almostLongLine], none) := by
  have h := Parse_Join [almostLongLine] none
    (by
      intro s hs
      rw [List.mem_singleton.1 hs, almostLongLine_candidateKey]
      decide)
    (by
      intro s hs
      rw [List.mem_singleton.1 hs, almostLongLine, Valid_cons_ascii _ _ (by decide),
        Valid_cons_ascii _ _ (by decide)]
      exact xLine_valid _)
    (by
      intro s hs h10
      rw [List.mem_singleton.1 hs] at h10
      rcases almostLongLine_mem _ h10 with h | h | h <;> omega)
    (by
      intro s hs hl
      rw [List.mem_singleton.1 hs] at hl
      rcases almostLongLine_mem _ (List.mem_of_getLast?_eq_some hl) with h | h | h <;> omega)
    (by
      intro s hs
      rw [List.mem_singleton.1 hs]
      simp [almostLongLine])
    (by
      intro s hs
      rw [List.mem_singleton.1 hs, almostLongLine_length, MaxScanTokenSize_eq]
      omega)
    (by
      intro s hs
      simp only [List.head?_cons, Option.some.injEq] at hs
      rw [← hs]
      simp [almostLongLine, utf8BOM, List.isPrefixOf])
  simpa [Join] using h.1

/-- Behind a BOM the assignment of 65534 bytes does not fit in the buffer:
`Parse` returns no collection and no error. -/
theorem Parse_utf8BOM_almostLongLine :
    Parse ⟨utf8BOM ++ almostLongLine, none⟩ = ([], none) := by
  have hraw : rawLines (utf8BOM ++ almostLongLine) = [utf8BOM ++ almostLongLine] := by
    apply rawLines_single
    · exact List.append_ne_nil_of_left_ne_nil (by decide) _
    · intro h
      rcases List.mem_append.1 h with h | h
      · revert h; decide
      · rcases almostLongLine_mem _ h with h | h | h <;> omega
  have hlen : MaxScanTokenSize ≤ (utf8BOM ++ almostLongLine).length := by
    rw [List.length_append, almostLongLine_length, MaxScanTokenSize_eq]
    decide
  rw [Parse_eq, tokens_of_long_head ⟨utf8BOM ++ almostLongLine, none⟩ _ _ hraw hlen,
    parseLoop_nil]

theorem stripLine_utf8BOM_append (t : Bytes) (h : utf8BOM.isPrefixOf t = false) :
    stripLine 1 (utf8BOM ++ t) = stripLine 1 t := by
  simp only [stripLine, if_true]
  rw [TrimPrefix_append, TrimPrefix_of_not _ _ h]

theorem dropCR_utf8BOM_append (l : Bytes) : dropCR (utf8BOM ++ l) = utf8BOM ++ dropCR l := by
  cases l with
  | nil =>
    have h : dropCR [] = [] := by decide
    rw [List.append_nil, dropCR_utf8BOM, h, List.append_nil]
  | cons b t => exact dropCR_append utf8BOM (b :: t) (by simp)

/-! ## The result of `Parse` over the lines the scanner delivers

The three statements of this section hold for every reader, whatever the length
of its lines: they speak of the tokens of the scanner, which end before the
first line that does not fit in its buffer. -/

/-- A successful `Parse` returns the kept lines among the lines read. -/
theorem Parse_kept_of_tokens (r : Reader) (hok : (Parse r).2 = none) :
    (Parse r).1 = keptLines (NewScanner r).tokens := by
  rcases Parse_cases r with ⟨_, h⟩ | ⟨_, _, _, msg, _, _, _, h⟩
  · rw [h]
  · rw [h] at hok
    cases hok

/-- An error of `Parse` comes from a violating line read, and a violating line
read gives an error. -/
theorem Parse_error_iff_tokens (r : Reader) :
    (Parse r).2 ≠ none ↔
      ∃ i l, (NewScanner r).tokens[i]? = some l ∧ violating (i + 1) l = true := by
  constructor
  · intro h
    rcases Parse_cases r with ⟨_, h2⟩ | ⟨pre, l, post, msg, h1, _, h3, _⟩
    · rw [h2] at h
      exact absurd rfl h
    · refine ⟨pre.length, l, ?_, h3⟩
      rw [h1, List.getElem?_append_right (le_refl _)]
      simp
  · rintro ⟨i, l, hi, hl⟩
    rcases Parse_cases r with ⟨h1, _⟩ | ⟨_, _, _, msg, _, _, _, h4⟩
    · rw [h1 i l hi] at hl
      cases hl
    · rw [h4]
      simp

/-- The first violating line read, when its bytes are not valid UTF-8, gives the
error of the encoding with its number among the lines read. -/
theorem Parse_invalid_of_tokens (r : Reader) (pre post : List Bytes) (l : Bytes)
    (h : (NewScanner r).tokens = pre ++ l :: post)
    (hpre : ∀ i l', pre[i]? = some l' → violating (i + 1) l' = false)
    (hbad : Valid l = false) :
    Parse r = ([], some (str "invalid UTF-8 bytes at line " ++ itoa (pre.length + 1))) := by
  rw [Parse_eq, h, parseLoop_append_ok pre (l :: post) 1 []
    (fun i l' hi => by rw [Nat.add_comm]; exact hpre i l' hi),
    parseLoop_cons_invalid l post _ _ hbad, Nat.add_comm 1 pre.length]
  rfl

/-! ## The pairs of the iterator -/

/-- The pair that the iterator hands out for an element. -/
theorem pairs_acc (envs : Envs) (acc : List (Bytes × Bytes)) :
    Envs.Envs envs (fun key value acc => (true, acc ++ [(key, value)])) acc
      = acc ++ envs.map (fun l => ((Cut l (str "=")).1, (Cut l (str "=")).2.1)) := by
  induction envs generalizing acc with
  | nil => simp [Envs.Envs]
  | cons l rest ih => simp [Envs.Envs, ih]

theorem pairs_eq_map (envs : Envs) :
    Envs.pairs envs = envs.map (fun l => ((Cut l (str "=")).1, (Cut l (str "=")).2.1)) := by
  simp [Envs.pairs, pairs_acc]

theorem assignment_eq (p : Bytes × Bytes) : assignment p = p.1 ++ 0x3D :: p.2 := by
  simp [assignment, str_eq]

/-- The iterator gives back the pairs of which the strings were made, when no key
contains `=`. -/
theorem pairs_assignments (kvs : List (Bytes × Bytes)) (h : ∀ p ∈ kvs, 0x3D ∉ p.1) :
    Envs.pairs (kvs.map assignment) = kvs := by
  rw [pairs_eq_map, List.map_map]
  conv_rhs => rw [← List.map_id kvs]
  apply List.map_congr_left
  intro p hp
  simp only [Function.comp, assignment_eq, Cut_append _ _ (h p hp), id]

theorem candidateKey_assignment (p : Bytes × Bytes) (h : 0x3D ∉ p.1) :
    candidateKey (assignment p) = p.1 := by
  rw [assignment_eq, candidateKey, Cut_append _ _ h]

/-! ## The error of the scanner

`Parse` does not look at `Err()` of the scanner. The statements of this section
tell what that error is on a stream with an over-long first line, and that the
lines of the stream are all read when the scanner has no error. -/

/-- A first line that does not fit in the buffer leaves `ErrTooLong` in the
scanner. -/
theorem NewScanner_err_of_long_head (d : Bytes) (e : Option Bytes) (l : Bytes) (ls : List Bytes)
    (h : rawLines d = l :: ls) (hl : MaxScanTokenSize ≤ l.length) :
    (NewScanner ⟨d, e⟩).err = some ErrTooLong := by
  have : ¬ l.length < MaxScanTokenSize := by omega
  simp [NewScanner, h, List.takeWhile_cons, this]

/-- A scanner without an error has read every line: they all fit in its buffer. -/
theorem fit_of_no_scanner_error (r : Reader) (h : (NewScanner r).err = none) :
    ∀ x ∈ rawLines r.data, x.length < MaxScanTokenSize := by
  have hlen : ¬ ((rawLines r.data).takeWhile (fun l => decide (l.length < MaxScanTokenSize))).length
      < (rawLines r.data).length := by
    intro hlt
    simp only [NewScanner, hlt, if_true] at h
    cases h
  have hpre := List.takeWhile_prefix (fun l : Bytes => decide (l.length < MaxScanTokenSize))
    (l := rawLines r.data)
  have heq := hpre.eq_of_length (le_antisymm hpre.length_le (not_lt.1 hlen))
  intro x hx
  rw [← heq] at hx
  simpa using List.mem_takeWhile_imp hx

/-- When neither `Parse` nor the scanner has an error, the result is the kept
lines of the whole stream. -/
theorem Parse_kept_of_no_scanner_error (r : Reader) (herr : (NewScanner r).err = none)
    (hok : (Parse r).2 = none) :
    (Parse r).1 = keptLines (fileLines r.data) := by
  rw [Parse_kept_of_tokens r hok, tokens_eq_fileLines r (fit_of_no_scanner_error r herr)]

/-- When the scanner has no error, `Parse` returns an error if and only if the
stream has a violating line. -/
theorem Parse_error_iff_of_no_scanner_error (r : Reader) (herr : (NewScanner r).err = none) :
    (Parse r).2 ≠ none ↔
      ∃ i l, (fileLines r.data)[i]? = some l ∧ violating (i + 1) l = true := by
  rw [Parse_error_iff_tokens r, tokens_eq_fileLines r (fit_of_no_scanner_error r herr)]

/-! ## The claims -/

/-- C1, as the claim states it, fails: the string `#A=1` has the non-empty,
whitespace-free key `#A`, yet `Parse` takes it for a comment, so that the pairs
of the parsed collection are not the original ones, the one pair of `#A` and
`1`. -/
theorem parse_join_hash_key :
    candidateKey (str "#A=1") ≠ [] ∧
    ContainsFunc (candidateKey (str "#A=1")) IsSpace = false ∧
    Parse ⟨Join [str "#A=1"] [0x0A], none⟩ = ([], none) ∧
    Envs.pairs (Parse ⟨Join [str "#A=1"] [0x0A], none⟩).1 ≠ Envs.pairs [str "#A=1"] ∧
    Envs.pairs [str "#A=1"] = [(str "#A", str "1")] := by
  decide

/-- C1, amended: for every list of pairs of a key and a value, of which the
strings `KEY=VALUE` are valid UTF-8, contain no newline, do not end in a
carriage return and are shorter than the scanner's buffer, the keys are not
empty, contain no whitespace and no `=` and do not start with `#`, and the
first string does not start with the UTF-8 BOM, `Parse` of the strings joined
by newlines succeeds with exactly the strings, and the iteration over the
result yields exactly the pairs of the list, in order. -/
theorem parse_join_roundtrip (kvs : List (Bytes × Bytes)) (e : Option Bytes)
    (hkey : ∀ p ∈ kvs, p.1 ≠ [] ∧ ContainsFunc p.1 IsSpace = false ∧ 0x3D ∉ p.1)
    (hvalid : ∀ p ∈ kvs, Valid (assignment p) = true)
    (hnl : ∀ p ∈ kvs, 0x0A ∉ assignment p)
    (hcr : ∀ p ∈ kvs, (assignment p).getLast? ≠ some 0x0D)
    (hhash : ∀ p ∈ kvs, p.1.head? ≠ some 0x23)
    (hlen : ∀ p ∈ kvs, (assignment p).length < MaxScanTokenSize)
    (hbom : ∀ p, kvs.head? = some p → utf8BOM.isPrefixOf (assignment p) = false) :
    Parse ⟨Join (kvs.map assignment) [0x0A], e⟩ = (kvs.map assignment, none) ∧
      Envs.pairs (Parse ⟨Join (kvs.map assignment) [0x0A], e⟩).1 = kvs := by
  have hparse := (Parse_Join (kvs.map assignment) e
    (fun s hs => by
      obtain ⟨p, hp, rfl⟩ := List.mem_map.1 hs
      rw [candidateKey_assignment p (hkey p hp).2.2]
      exact ⟨(hkey p hp).1, (hkey p hp).2.1⟩)
    (fun s hs => by
      obtain ⟨p, hp, rfl⟩ := List.mem_map.1 hs
      exact hvalid p hp)
    (fun s hs => by
      obtain ⟨p, hp, rfl⟩ := List.mem_map.1 hs
      exact hnl p hp)
    (fun s hs => by
      obtain ⟨p, hp, rfl⟩ := List.mem_map.1 hs
      exact hcr p hp)
    (fun s hs => by
      obtain ⟨p, hp, rfl⟩ := List.mem_map.1 hs
      have hne := (hkey p hp).1
      have hh := hhash p hp
      rw [assignment_eq]
      cases hk : p.1 with
      | nil => exact absurd hk hne
      | cons a t =>
        rw [hk] at hh
        simpa using hh)
    (fun s hs => by
      obtain ⟨p, hp, rfl⟩ := List.mem_map.1 hs
      exact hlen p hp)
    (fun s hs => by
      cases kvs with
      | nil => simp at hs
      | cons p t =>
        simp only [List.map_cons, List.head?_cons, Option.some.injEq] at hs
        rw [← hs]
        exact hbom p rfl)).1
  refine ⟨hparse, ?_⟩
  rw [hparse]
  exact pairs_assignments kvs (fun p hp => (hkey p hp).2.2)

/-- A witness of the amended C1: the three assignments of the test file, from
their pairs; the iteration over the parsed collection yields the three pairs. -/
theorem parse_join_roundtrip_witness :
    Join ([(str "FOO", str "foo"), (str "BAR", str " bar bar"),
        (str "BAZ", str "baz # baz")].map assignment) [0x0A]
      = str "FOO=foo\nBAR= bar bar\nBAZ=baz # baz" ∧
    Parse ⟨Join ([(str "FOO", str "foo"), (str "BAR", str " bar bar"),
        (str "BAZ", str "baz # baz")].map assignment) [0x0A], none⟩
      = ([str "FOO=foo", str "BAR= bar bar", str "BAZ=baz # baz"], none) ∧
    Envs.pairs (Parse ⟨Join ([(str "FOO", str "foo"), (str "BAR", str " bar bar"),
        (str "BAZ", str "baz # baz")].map assignment) [0x0A], none⟩).1
      = [(str "FOO", str "foo"), (str "BAR", str " bar bar"), (str "BAZ", str "baz # baz")] :=
  ⟨by decide, by decide,
    (parse_join_roundtrip [(str "FOO", str "foo"), (str "BAR", str " bar bar"),
      (str "BAZ", str "baz # baz")] none
      (by decide) (by decide) (by decide) (by decide) (by decide) (by decide) (by decide)).2⟩


/-- C2, at the failing input: on a stream that is one line of 65536 letters `x`
and its newline, `Parse` succeeds with an empty collection, although that line
is not empty and does not start with `#`, so that the list of the kept lines is
that line; the scanner has stopped with `ErrTooLong`, which `Parse` does not
look at. -/
theorem parse_result_kept_long :
    Parse ⟨longLine ++ [0x0A], none⟩ = ([], none) ∧
    keptLines (fileLines (longLine ++ [0x0A])) = [longLine] ∧
    (Parse ⟨longLine ++ [0x0A], none⟩).1 ≠ keptLines (fileLines (longLine ++ [0x0A])) ∧
    (NewScanner ⟨longLine ++ [0x0A], none⟩).err = some ErrTooLong := by
  have hk : keptLines (fileLines (longLine ++ [0x0A])) = [longLine] := by
    rw [fileLines_longLine_newline, fileLines_nil, keptLines_longLine]
  refine ⟨Parse_longLine [] none, hk, ?_, ?_⟩
  · rw [Parse_longLine [] none, hk]
    exact fun h => List.cons_ne_nil _ _ h.symm
  · exact NewScanner_err_of_long_head _ none longLine (rawLines [])
      (rawLines_xLine_newline _ []) (by rw [longLine_length])

/-- The statement of C2 on the streams all of whose lines are shorter than the
scanner's buffer (65536 bytes): whenever `Parse` succeeds its result is exactly
the list, in file order, of the lines without the UTF-8 BOM of line 1 and
without their leading whitespace, of which those are kept that are then not
empty and do not start with `#`. -/
theorem parse_result_kept (r : Reader)
    (hfit : ∀ x ∈ rawLines r.data, x.length < MaxScanTokenSize)
    (hok : (Parse r).2 = none) :
    (Parse r).1 = keptLines (fileLines r.data) := by
  rcases Parse_cases r with ⟨_, h⟩ | ⟨_, _, _, msg, _, _, _, h⟩
  · rw [h, tokens_eq_fileLines r hfit]
  · rw [h] at hok
    cases hok

/-- The stream of C2, the first test file: values are not trimmed and an inline
`#` starts no comment. -/
theorem parse_result_kept_witness :
    (Parse ⟨str "FOO=foo\nBAR= bar bar\nBAZ=baz # baz\n", none⟩).1
        = keptLines (fileLines (str "FOO=foo\nBAR= bar bar\nBAZ=baz # baz\n")) ∧
      Parse ⟨str "FOO=foo\nBAR= bar bar\nBAZ=baz # baz\n", none⟩
        = ([str "FOO=foo", str "BAR= bar bar", str "BAZ=baz # baz"], none) :=
  ⟨parse_result_kept ⟨str "FOO=foo\nBAR= bar bar\nBAZ=baz # baz\n", none⟩
    (by decide) (by decide), by decide⟩

/-- The keys of the collection that the loop of `Parse` returns. -/
theorem parseLoop_keys (ls : List Bytes) (n : Nat) (envs : Envs)
    (henvs : ∀ s ∈ envs,
      candidateKey s ≠ [] ∧ ContainsFunc (candidateKey s) IsSpace = false) :
    ∀ s ∈ (parseLoop ls n envs).1,
      candidateKey s ≠ [] ∧ ContainsFunc (candidateKey s) IsSpace = false := by
  induction ls generalizing n envs with
  | nil => simpa [parseLoop_nil] using henvs
  | cons b rest ih =>
    cases hb : violating n b with
    | true =>
      obtain ⟨msg, hmsg⟩ := parseLoop_cons_bad b rest n envs hb
      simp [hmsg]
    | false =>
      obtain ⟨hv, hs | ⟨hk, hw⟩⟩ := (violating_eq_false_iff n b).1 hb
      · rw [parseLoop_cons_skip b rest n envs hv hs]
        exact ih (n + 1) envs henvs
      · cases hs : isSkipped (stripLine n b) with
        | true =>
          rw [parseLoop_cons_skip b rest n envs hv hs]
          exact ih (n + 1) envs henvs
        | false =>
          rw [parseLoop_cons_keep b rest n envs hv hs hk hw]
          apply ih (n + 1)
          intro s hs
          rcases List.mem_append.1 hs with h | h
          · exact henvs s h
          · rw [List.mem_singleton.1 h]
            exact ⟨hk, hw⟩

/-- C3: every string of the collection that `Parse` returns has a key, the text
before its first `=` or the whole string when it has no `=`, that is not empty
and contains no Unicode whitespace. -/
theorem parse_keys_wellformed (r : Reader) (s : Bytes) (hs : s ∈ (Parse r).1) :
    (Cut s (str "=")).1 ≠ [] ∧ ContainsFunc (Cut s (str "=")).1 IsSpace = false :=
  parseLoop_keys (NewScanner r).tokens 1 [] (by simp) s hs

/-- A witness of C3: the second line of the first test file. -/
theorem parse_keys_wellformed_witness :
    str "BAR= bar bar" ∈ (Parse ⟨str "FOO=foo\nBAR= bar bar\nBAZ=baz # baz\n", none⟩).1 ∧
      (Cut (str "BAR= bar bar") (str "=")).1 = str "BAR" ∧
      (Cut (str "BAR= bar bar") (str "=")).1 ≠ [] ∧
      ContainsFunc (Cut (str "BAR= bar bar") (str "=")).1 IsSpace = false :=
  ⟨by decide, by decide,
    parse_keys_wellformed ⟨str "FOO=foo\nBAR= bar bar\nBAZ=baz # baz\n", none⟩
      (str "BAR= bar bar") (by decide)⟩


/-- C4, at the failing input: the second line of the stream, `=x`, has an empty
key, but the first line, 65536 letters `x`, does not fit in the scanner's
buffer, and `Parse` returns an empty collection and no error; the scanner has
stopped with `ErrTooLong`, which `Parse` does not look at. -/
theorem parse_error_iff_long :
    (∃ i l, (fileLines (longLine ++ 0x0A :: str "=x"))[i]? = some l ∧
      violating (i + 1) l = true) ∧
    Parse ⟨longLine ++ 0x0A :: str "=x", none⟩ = ([], none) ∧
    (NewScanner ⟨longLine ++ 0x0A :: str "=x", none⟩).err = some ErrTooLong := by
  refine ⟨⟨1, str "=x", ?_, by decide⟩, Parse_longLine _ none, ?_⟩
  · rw [fileLines_longLine_newline]
    decide
  · exact NewScanner_err_of_long_head _ none longLine (rawLines (str "=x"))
      (rawLines_xLine_newline _ _) (by rw [longLine_length])

/-- The statement of C4 on the streams all of whose lines are shorter than the
scanner's buffer (65536 bytes): `Parse` returns an error if and only if some
line is violating: its bytes are not valid UTF-8, or, without the BOM on line 1 and
without its leading whitespace, it is not empty, does not start with `#`, and
its candidate key is empty or contains a Unicode whitespace character. -/
theorem parse_error_iff (r : Reader)
    (hfit : ∀ x ∈ rawLines r.data, x.length < MaxScanTokenSize) :
    (Parse r).2 ≠ none ↔
      ∃ i l, (fileLines r.data)[i]? = some l ∧ violating (i + 1) l = true := by
  constructor
  · exact Parse_error_line r
  · rintro ⟨i, l, hi, hl⟩
    rcases Parse_cases r with ⟨h1, _⟩ | ⟨_, _, _, msg, _, _, _, h4⟩
    · rw [tokens_eq_fileLines r hfit] at h1
      rw [h1 i l hi] at hl
      cases hl
    · rw [h4]
      simp

/-- The statement of C4 on two streams: one with a violating third line, and
one without a violating line. -/
theorem parse_error_iff_witness :
    ((Parse ⟨str "A=1\n\n=x", none⟩).2 ≠ none ↔
      ∃ i l, (fileLines (str "A=1\n\n=x"))[i]? = some l ∧ violating (i + 1) l = true) ∧
    (Parse ⟨str "A=1\n\n=x", none⟩).2 ≠ none ∧
    ((Parse ⟨str "A=1\n#c\n", none⟩).2 ≠ none ↔
      ∃ i l, (fileLines (str "A=1\n#c\n"))[i]? = some l ∧ violating (i + 1) l = true) ∧
    (Parse ⟨str "A=1\n#c\n", none⟩).2 = none :=
  ⟨parse_error_iff ⟨str "A=1\n\n=x", none⟩ (by decide), by decide,
    parse_error_iff ⟨str "A=1\n#c\n", none⟩ (by decide), by decide⟩


/-- C5, as the claim states it, fails: for the stream of the claim, whose
violating line is line 2, the error is the text
`the variable key contains whitespace: 'FOO FOO'`, and it is the same error as
for the stream whose violating line is line 1. The error reports the candidate
key and no line number. -/
theorem parse_key_whitespace_no_line :
    Parse ⟨str "#comment\nFOO FOO=x", none⟩
        = ([], some (str "the variable key contains whitespace: \x27FOO FOO\x27")) ∧
      Parse ⟨str "FOO FOO=x", none⟩ = Parse ⟨str "#comment\nFOO FOO=x", none⟩ := by
  decide

/-- C5, amended: when the lines up to line N fit in the scanner's buffer, the
lines before line N are free of violations, and line N is valid UTF-8 and
violating with a candidate key that is not empty but contains a Unicode
whitespace character, `Parse` fails with the error
`the variable key contains whitespace: '<key>'`, which reports the candidate key
text (and no line number), and returns no collection. -/
theorem parse_key_whitespace (r : Reader) (pre post : List Bytes) (l : Bytes)
    (h : fileLines r.data = pre ++ l :: post)
    (hfit : ∀ x ∈ (rawLines r.data).take (pre.length + 1), x.length < MaxScanTokenSize)
    (hpre : ∀ i l', pre[i]? = some l' → violating (i + 1) l' = false)
    (hv : Valid l = true)
    (hviol : violating (pre.length + 1) l = true)
    (hk : candidateKey (stripLine (pre.length + 1) l) ≠ [])
    (hw : ContainsFunc (candidateKey (stripLine (pre.length + 1) l)) IsSpace = true) :
    Parse r = ([], some (str "the variable key contains whitespace: " ++ [0x27]
      ++ candidateKey (stripLine (pre.length + 1) l) ++ [0x27])) := by
  obtain ⟨post', hp⟩ := Parse_at_line r pre post l h hfit hpre
  have hs : isSkipped (stripLine (pre.length + 1) l) = false := by
    cases hs : isSkipped (stripLine (pre.length + 1) l) with
    | false => rfl
    | true => simp [violating, hv, hs] at hviol
  rw [hp, parseLoop_cons_keySpace l post' _ _ hv hs hk hw]
  rfl

/-- A witness of the amended C5: the stream of the claim. -/
theorem parse_key_whitespace_witness :
    Parse ⟨str "#comment\nFOO FOO=x", none⟩
      = ([], some (str "the variable key contains whitespace: " ++ [0x27]
        ++ candidateKey (stripLine ([str "#comment"].length + 1) (str "FOO FOO=x"))
        ++ [0x27])) ∧
    candidateKey (stripLine ([str "#comment"].length + 1) (str "FOO FOO=x")) = str "FOO FOO" :=
  ⟨parse_key_whitespace ⟨str "#comment\nFOO FOO=x", none⟩ [str "#comment"] []
    (str "FOO FOO=x") (by decide) (by decide) (before_of_all _ (by decide)) (by decide)
    (by decide) (by decide) (by decide), by decide⟩

/-- C6, as the claim states it, fails: the only line of the stream is
violating and starts with `=`, but its bytes are not valid UTF-8, and the error
is the one of the encoding, not the one of the missing key. -/
theorem parse_no_key_invalid :
    fileLines [0x3D, 0xFF] = [[0x3D, 0xFF]] ∧
    violating 1 [0x3D, 0xFF] = true ∧
    (TrimLeftFunc [0x3D, 0xFF] IsSpace).head? = some 0x3D ∧
    Parse ⟨[0x3D, 0xFF], none⟩ = ([], some (str "invalid UTF-8 bytes at line 1")) ∧
    Parse ⟨[0x3D, 0xFF], none⟩ ≠ ([], some (str "no variable key on line 1")) := by
  decide

/-- C6, amended: when the lines up to line N fit in the scanner's buffer, the
lines before line N are free of violations, and line N is valid UTF-8 and
starts with `=` once its leading whitespace is removed, `Parse` fails with the
error `no variable key on line N` and returns no collection. -/
theorem parse_no_key (r : Reader) (pre post : List Bytes) (l : Bytes)
    (h : fileLines r.data = pre ++ l :: post)
    (hfit : ∀ x ∈ (rawLines r.data).take (pre.length + 1), x.length < MaxScanTokenSize)
    (hpre : ∀ i l', pre[i]? = some l' → violating (i + 1) l' = false)
    (hv : Valid l = true)
    (heq : (TrimLeftFunc l IsSpace).head? = some 0x3D) :
    Parse r = ([], some (str "no variable key on line " ++ itoa (pre.length + 1))) := by
  obtain ⟨post', hp⟩ := Parse_at_line r pre post l h hfit hpre
  have hstrip := stripLine_of_eq_head (pre.length + 1) l heq
  have hs : isSkipped (stripLine (pre.length + 1) l) = false := by
    rw [hstrip]
    cases ht : TrimLeftFunc l IsSpace with
    | nil => rw [ht] at heq; simp at heq
    | cons b v => rw [ht] at heq; simp at heq; simp [isSkipped, heq]
  have hk : candidateKey (stripLine (pre.length + 1) l) = [] := by
    rw [hstrip]
    exact candidateKey_of_eq_head _ heq
  rw [hp, parseLoop_cons_noKey l post' _ _ hv hs hk]
  rfl

/-- A witness of the amended C6: an indented line without a key, after an
assignment and a blank line. -/
theorem parse_no_key_witness :
    Parse ⟨str "FOO=foo\n\n  =bar\nBAZ=baz", none⟩
      = ([], some (str "no variable key on line " ++ itoa ([str "FOO=foo", []].length + 1))) ∧
    str "no variable key on line " ++ itoa ([str "FOO=foo", []].length + 1)
      = str "no variable key on line 3" :=
  ⟨parse_no_key ⟨str "FOO=foo\n\n  =bar\nBAZ=baz", none⟩ [str "FOO=foo", []] [str "BAZ=baz"]
    (str "  =bar") (by decide) (by decide) (before_of_all _ (by decide)) (by decide)
    (by decide), by decide⟩

/-- C7, as the claim states it, fails: the first line of the stream is free of
violations and the bytes of the second are not valid UTF-8, but the first line,
65536 letters `x`, does not fit in the scanner's buffer, and `Parse` returns no
error. -/
theorem parse_invalid_utf8_long :
    fileLines (longLine ++ [0x0A, 0xFF]) = [longLine] ++ [0xFF] :: [] ∧
    (∀ i l', [longLine][i]? = some l' → violating (i + 1) l' = false) ∧
    Valid [0xFF] = false ∧
    Parse ⟨longLine ++ [0x0A, 0xFF], none⟩ = ([], none) := by
  refine ⟨?_, longLine_violating_before, by decide, Parse_longLine _ none⟩
  have h : fileLines [0xFF] = [[0xFF]] := by decide
  rw [fileLines_longLine_newline, h]
  rfl

/-- C7, amended: when the lines up to line N fit in the scanner's buffer, the
lines before line N are free of violations, and the bytes of line N are not
valid UTF-8, `Parse` fails with the error `invalid UTF-8 bytes at line N` and
returns no collection, whatever else line N is. -/
theorem parse_invalid_utf8 (r : Reader) (pre post : List Bytes) (l : Bytes)
    (h : fileLines r.data = pre ++ l :: post)
    (hfit : ∀ x ∈ (rawLines r.data).take (pre.length + 1), x.length < MaxScanTokenSize)
    (hpre : ∀ i l', pre[i]? = some l' → violating (i + 1) l' = false)
    (hbad : Valid l = false) :
    Parse r = ([], some (str "invalid UTF-8 bytes at line " ++ itoa (pre.length + 1))) := by
  obtain ⟨post', hp⟩ := Parse_at_line r pre post l h hfit hpre
  rw [hp, parseLoop_cons_invalid l post' _ _ hbad]
  rfl

/-- A witness of the amended C7: a comment with a byte that is not UTF-8 on
line 2, after an assignment. -/
theorem parse_invalid_utf8_witness :
    Parse ⟨str "FOO=foo\n# " ++ [0xFF] ++ str "\nBAZ=baz", none⟩
      = ([], some (str "invalid UTF-8 bytes at line " ++ itoa ([str "FOO=foo"].length + 1))) ∧
    str "invalid UTF-8 bytes at line " ++ itoa ([str "FOO=foo"].length + 1)
      = str "invalid UTF-8 bytes at line 2" :=
  ⟨parse_invalid_utf8 ⟨str "FOO=foo\n# " ++ [0xFF] ++ str "\nBAZ=baz", none⟩ [str "FOO=foo"]
    [str "BAZ=baz"] (str "# " ++ [0xFF]) (by decide) (by decide) (before_of_all _ (by decide))
    (by decide), by decide⟩

/-- C8: whenever `Parse` returns an error, the collection it returns is nil,
also when lines before the violating one were valid assignments. -/
theorem parse_error_nil (r : Reader) (h : (Parse r).2 ≠ none) : (Parse r).1 = [] := by
  rcases Parse_cases r with ⟨_, h2⟩ | ⟨_, _, _, msg, _, _, _, h4⟩
  · rw [h2] at h
    exact absurd rfl h
  · rw [h4]

/-- A witness of C8: a valid assignment on line 1 and a line without a key on
line 2. -/
theorem parse_error_nil_witness :
    (Parse ⟨str "FOO=foo\n=bar", none⟩).2 = some (str "no variable key on line 2") ∧
      (Parse ⟨str "FOO=foo\n=bar", none⟩).1 = [] :=
  ⟨by decide, parse_error_nil ⟨str "FOO=foo\n=bar", none⟩ (by decide)⟩


/-- C9, as the claim states it, fails: the only line of the stream starts with
`#`, but a byte of the comment is not UTF-8, and `Parse` returns an error. -/
theorem parse_comment_invalid :
    (∀ l ∈ fileLines [0x23, 0xFF], ∃ (ws : List Nat) (rest : Bytes), (∀ w ∈ ws, IsSpace w = true) ∧
      l = ws.flatMap EncodeRune ++ rest ∧ (rest = [] ∨ rest.head? = some 0x23)) ∧
    Parse ⟨[0x23, 0xFF], none⟩ = ([], some (str "invalid UTF-8 bytes at line 1")) := by
  refine ⟨?_, by decide⟩
  intro l hl
  have h : fileLines [0x23, 0xFF] = [[0x23, 0xFF]] := by decide
  rw [h, List.mem_singleton] at hl
  exact ⟨[], [0x23, 0xFF], by simp, by simp [hl], Or.inr rfl⟩

/-- C9, amended: on a stream all of whose lines are valid UTF-8 and are blank
or comments (whitespace runes, and then nothing or a `#` and any text), the
empty stream included, `Parse` succeeds and returns an empty collection. -/
theorem parse_blank_comment (r : Reader)
    (h : ∀ l ∈ fileLines r.data, Valid l = true ∧
      ∃ (ws : List Nat) (rest : Bytes), (∀ w ∈ ws, IsSpace w = true) ∧ l = ws.flatMap EncodeRune ++ rest ∧
        (rest = [] ∨ rest.head? = some 0x23)) :
    Parse r = ([], none) := by
  rw [Parse_eq]
  apply parseLoop_all_skipped
  intro l hl
  obtain ⟨hv, ws, rest, hws, hl2, hrest⟩ := h l ((tokens_initial r).subset hl)
  refine ⟨hv, fun k => ?_⟩
  rw [hl2]
  exact isSkipped_blank_comment k ws rest hws hrest

/-- A witness of the amended C9: a blank line, an indented comment behind a tab
and an ideographic space, and a line of two spaces. -/
theorem parse_blank_comment_witness :
    Parse ⟨str "\n\t　# FOO=foo\n  \n", none⟩ = ([], none) := by
  apply parse_blank_comment
  intro l hl
  have h : fileLines (str "\n\t　# FOO=foo\n  \n") = [[], str "\t　# FOO=foo", str "  "] := by
    decide
  simp only [h, List.mem_cons, List.mem_singleton, List.not_mem_nil, or_false] at hl
  rcases hl with hl | hl | hl
  · exact ⟨by rw [hl]; decide, [], [], by simp, by simp [hl], Or.inl rfl⟩
  · exact ⟨by rw [hl]; decide, [0x09, 0x3000], str "# FOO=foo", by decide,
      by rw [hl]; decide, Or.inr (by decide)⟩
  · exact ⟨by rw [hl]; decide, [0x20, 0x20], [], by decide, by rw [hl]; decide, Or.inl rfl⟩

/-- C10, as the claim states it, fails: the assignment `A=x...x` of 65534 bytes
is parsed as it stands, but behind a BOM it does not fit in the scanner's
buffer, and `Parse` returns an empty collection. -/
theorem parse_bom_long :
    utf8BOM.isPrefixOf almostLongLine = false ∧
    Parse ⟨utf8BOM ++ almostLongLine, none⟩ ≠ Parse ⟨almostLongLine, none⟩ := by
  refine ⟨by simp [almostLongLine, utf8BOM, List.isPrefixOf], ?_⟩
  rw [Parse_utf8BOM_almostLongLine, Parse_almostLongLine]
  intro h
  exact List.cons_ne_nil _ _ (congrArg Prod.fst h).symm

/-- C10, amended: for every byte string `s` that does not start with the bytes
EF BB BF and whose first line does not have a length of 65533, 65534 or 65535
bytes (a line that fits in the scanner's buffer, and does not fit any more
behind a BOM), `Parse` of the BOM followed by `s` returns the same collection
and the same error as `Parse` of `s`. -/
theorem parse_bom_transparent (s : Bytes) (e : Option Bytes)
    (hs : utf8BOM.isPrefixOf s = false)
    (hlen : ∀ l, (rawLines s).head? = some l →
      l.length + 3 < MaxScanTokenSize ∨ MaxScanTokenSize ≤ l.length) :
    Parse ⟨utf8BOM ++ s, e⟩ = Parse ⟨s, e⟩ := by
  cases hraw : rawLines s with
  | nil =>
    rw [(rawLines_eq_nil s).1 hraw, Parse_err_irrelevant, Parse_err_irrelevant [] e]
    decide
  | cons l ls =>
    have hraw2 : rawLines (utf8BOM ++ s) = (utf8BOM ++ l) :: ls :=
      rawLines_prepend utf8BOM s l ls (by decide) hraw
    rcases hlen l (by rw [hraw]; rfl) with hl | hl
    · have hl2 : l.length + 3 < MaxScanTokenSize := hl
      have hl3 : l.length < MaxScanTokenSize := by omega
      have hl4 : (utf8BOM ++ l).length < MaxScanTokenSize := by
        rw [List.length_append]; simpa [utf8BOM, Nat.add_comm] using hl2
      have ht : utf8BOM.isPrefixOf (dropCR l) = false := by
        cases hp : utf8BOM.isPrefixOf (dropCR l) with
        | false => rfl
        | true =>
          have h1 : utf8BOM <+: s :=
            ((List.isPrefixOf_iff_prefix.1 hp).trans (dropCR_initial l)).trans
              (rawLines_head_initial s l ls hraw)
          rw [List.isPrefixOf_iff_prefix.2 h1] at hs
          cases hs
      have htok1 : (NewScanner ⟨utf8BOM ++ s, e⟩).tokens
          = (utf8BOM ++ dropCR l)
            :: (ls.takeWhile (fun l => l.length < MaxScanTokenSize)).map dropCR := by
        simp only [NewScanner, hraw2, List.takeWhile_cons, hl4, decide_True, if_true,
          List.map_cons, dropCR_utf8BOM_append]
      have htok2 : (NewScanner ⟨s, e⟩).tokens
          = dropCR l :: (ls.takeWhile (fun l => l.length < MaxScanTokenSize)).map dropCR := by
        simp only [NewScanner, hraw, List.takeWhile_cons, hl3, decide_True, if_true,
          List.map_cons]
      rw [Parse_eq, Parse_eq, htok1, htok2]
      exact parseLoop_cons_congr _ _ _ 1 [] (Valid_utf8BOM_append _)
        (stripLine_utf8BOM_append _ ht)
    · have hl2 : MaxScanTokenSize ≤ (utf8BOM ++ l).length := by
        rw [List.length_append]; omega
      rw [Parse_eq, Parse_eq, tokens_of_long_head _ _ _ hraw2 hl2,
        tokens_of_long_head _ _ _ hraw hl]

/-- A witness of the amended C10: the first test file behind a BOM. -/
theorem parse_bom_transparent_witness :
    Parse ⟨utf8BOM ++ str "FOO=foo\nBAR= bar bar\nBAZ=baz # baz\n", none⟩
        = Parse ⟨str "FOO=foo\nBAR= bar bar\nBAZ=baz # baz\n", none⟩ ∧
      Parse ⟨utf8BOM ++ str "FOO=foo\nBAR= bar bar\nBAZ=baz # baz\n", none⟩
        = ([str "FOO=foo", str "BAR= bar bar", str "BAZ=baz # baz"], none) :=
  ⟨parse_bom_transparent (str "FOO=foo\nBAR= bar bar\nBAZ=baz # baz\n") none (by decide)
    (by decide), by decide⟩

/-! ## Facts about the iterator, the maps and the environment -/

theorem pairs_cons (l : Bytes) (rest : Envs) :
    Envs.pairs (l :: rest)
      = ((Cut l (str "=")).1, (Cut l (str "=")).2.1) :: Envs.pairs rest := by
  simp [pairs_eq_map]

theorem pairs_length (envs : Envs) : (Envs.pairs envs).length = envs.length := by
  simp [pairs_eq_map]

/-- A loop body that always continues is run on every pair, in order. -/
theorem Envs_continue {σ : Type} (envs : Envs) (f : Bytes → Bytes → σ → σ) (s : σ) :
    Envs.Envs envs (fun key value s => (true, f key value s)) s
      = (Envs.pairs envs).foldl (fun s p => f p.1 p.2 s) s := by
  induction envs generalizing s with
  | nil => simp [Envs.Envs, pairs_eq_map]
  | cons l rest ih => simp [Envs.Envs, ih, pairs_cons]

theorem Map_eq_setAll (envs : Envs) : Envs.Map envs = setAll (Envs.pairs envs) [] := by
  simp only [Envs.Map, setAll]
  exact Envs_continue envs (fun key value m => GoMap.set m key value) []

theorem find_filter_ne (m : GoMap) (key k : Bytes) (h : key ≠ k) :
    (m.filter (fun e => decide (e.1 ≠ key))).find? (fun e => decide (e.1 = k))
      = m.find? (fun e => decide (e.1 = k)) := by
  induction m with
  | nil => rfl
  | cons e m ih =>
    by_cases hek : e.1 = k
    · have he : e.1 ≠ key := fun h2 => h (h2.symm.trans hek)
      rw [List.filter_cons_of_pos (by simpa using he),
        List.find?_cons_of_pos _ (by simpa using hek),
        List.find?_cons_of_pos _ (by simpa using hek)]
    · by_cases he : e.1 = key
      · rw [List.filter_cons_of_neg (by simpa using he), ih,
          List.find?_cons_of_neg _ (by simpa using hek)]
      · rw [List.filter_cons_of_pos (by simpa using he),
          List.find?_cons_of_neg _ (by simpa using hek),
          List.find?_cons_of_neg _ (by simpa using hek), ih]

theorem get_set (m : GoMap) (key value k : Bytes) :
    (GoMap.set m key value).get k = if key = k then some value else m.get k := by
  unfold GoMap.set GoMap.get
  by_cases h : key = k
  · rw [List.find?_cons_of_pos _ (by simpa using h), if_pos h]
    rfl
  · rw [List.find?_cons_of_neg _ (by simpa using h), if_neg h, find_filter_ne m key k h]

theorem keys_set (m : GoMap) (key value k : Bytes) :
    k ∈ (GoMap.set m key value).keys ↔ k = key ∨ k ∈ m.keys := by
  simp only [GoMap.set, GoMap.keys, List.map_cons, List.mem_cons, List.mem_map,
    List.mem_filter]
  constructor
  · rintro (h | ⟨e, ⟨he, _⟩, hk⟩)
    · exact Or.inl h
    · exact Or.inr ⟨e, he, hk⟩
  · rintro (h | ⟨e, he, hk⟩)
    · exact Or.inl h
    · by_cases hkey : k = key
      · exact Or.inl hkey
      · exact Or.inr ⟨e, ⟨he, by simpa [hk] using hkey⟩, hk⟩

theorem nodup_set (m : GoMap) (key value : Bytes) (h : m.keys.Nodup) :
    (GoMap.set m key value).keys.Nodup := by
  simp only [GoMap.set, GoMap.keys, List.map_cons, List.nodup_cons, List.mem_map,
    List.mem_filter]
  refine ⟨?_, ?_⟩
  · rintro ⟨e, ⟨_, he⟩, hk⟩
    simp [hk] at he
  · exact List.Nodup.sublist (List.Sublist.map _ (List.filter_sublist m)) h

theorem lastValue_nil (k : Bytes) : lastValue [] k = none := by
  simp [lastValue]

theorem lastValue_cons (p : Bytes × Bytes) (ps : List (Bytes × Bytes)) (k : Bytes) :
    lastValue (p :: ps) k
      = match lastValue ps k with
        | some v => some v
        | none => if p.1 = k then some p.2 else none := by
  simp only [lastValue, List.reverse_cons, List.find?_append]
  cases h : List.find? (fun e => decide (e.1 = k)) ps.reverse with
  | none => by_cases hp : p.1 = k <;> simp [hp]
  | some e => simp

/-- The value of a key after pairs were set: that of the last pair with the
key, or the value it had when no pair has the key. -/
theorem get_setAll (ps : List (Bytes × Bytes)) (m : GoMap) (k : Bytes) :
    (setAll ps m).get k
      = match lastValue ps k with
        | some v => some v
        | none => m.get k := by
  induction ps generalizing m with
  | nil => simp [setAll, lastValue_nil]
  | cons p ps ih =>
    have hstep : setAll (p :: ps) m = setAll ps (GoMap.set m p.1 p.2) := by
      simp [setAll]
    rw [hstep, ih, lastValue_cons, get_set]
    cases lastValue ps k with
    | some v => rfl
    | none => by_cases hp : p.1 = k <;> simp [hp]

theorem keys_setAll (ps : List (Bytes × Bytes)) (m : GoMap) (k : Bytes) :
    k ∈ (setAll ps m).keys ↔ k ∈ ps.map (fun p => p.1) ∨ k ∈ m.keys := by
  induction ps generalizing m with
  | nil => simp [setAll]
  | cons p ps ih =>
    have hstep : setAll (p :: ps) m = setAll ps (GoMap.set m p.1 p.2) := by
      simp [setAll]
    rw [hstep, ih, keys_set]
    simp only [List.map_cons, List.mem_cons]
    tauto

theorem nodup_setAll (ps : List (Bytes × Bytes)) (m : GoMap) (h : m.keys.Nodup) :
    (setAll ps m).keys.Nodup := by
  induction ps generalizing m with
  | nil => simpa [setAll] using h
  | cons p ps ih =>
    have hstep : setAll (p :: ps) m = setAll ps (GoMap.set m p.1 p.2) := by
      simp [setAll]
    rw [hstep]
    exact ih _ (nodup_set m p.1 p.2 h)

theorem lastValue_isSome (ps : List (Bytes × Bytes)) (k : Bytes) :
    (lastValue ps k).isSome = true ↔ k ∈ ps.map (fun p => p.1) := by
  induction ps with
  | nil => simp [lastValue_nil]
  | cons p ps ih =>
    rw [lastValue_cons]
    cases h : lastValue ps k with
    | some v =>
      have := ih.1 (by simp [h])
      simp [this]
    | none =>
      have hn : ¬ k ∈ ps.map (fun p => p.1) := fun hk => by
        have := ih.2 hk
        simp [h] at this
      by_cases hp : p.1 = k
      · simp [hp]
      · have hp2 : ¬ k = p.1 := fun e => hp e.symm
        simp only [List.map_cons, List.mem_cons, hp2, false_or]
        simp only [hp, if_false]
        simpa using hn


/-- A consumer that is traced and stops at its call number `j + 1`: the iterator
calls it on the first `j + 1` pairs and returns. -/
theorem Envs_traced_stop {σ : Type} (envs : Envs) (yield : Bytes → Bytes → σ → Bool × σ)
    (states : Nat → σ) (log : List (Bytes × Bytes)) (j : Nat)
    (hj : j < envs.length)
    (hcont : ∀ i p, i < j → (Envs.pairs envs)[i]? = some p →
      yield p.1 p.2 (states i) = (true, states (i + 1)))
    (hstop : ∀ p, (Envs.pairs envs)[j]? = some p →
      yield p.1 p.2 (states j) = (false, states (j + 1))) :
    Envs.Envs envs (traced yield) (states 0, log)
      = (states (j + 1), log ++ (Envs.pairs envs).take (j + 1)) := by
  induction envs generalizing states log j with
  | nil => simp at hj
  | cons l rest ih =>
    rw [pairs_cons] at hcont hstop ⊢
    cases j with
    | zero =>
      have h := hstop ((Cut l (str "=")).1, (Cut l (str "=")).2.1) (by simp)
      simp [Envs.Envs, traced, h]
    | succ j =>
      have h := hcont 0 ((Cut l (str "=")).1, (Cut l (str "=")).2.1) (by omega) (by simp)
      have hrec := ih (fun i => states (i + 1)) (log ++ [((Cut l (str "=")).1,
        (Cut l (str "=")).2.1)]) j (by simpa using hj)
        (fun i p hi hp => hcont (i + 1) p (by omega) (by simpa using hp))
        (fun p hp => hstop p (by simpa using hp))
      rw [Envs.Envs]
      simp only [traced, h, Bool.not_true, Bool.false_eq_true, if_false]
      simp only [] at hrec
      rw [hrec]
      simp

/-- A consumer that is traced and never stops is called on every pair. -/
theorem Envs_traced_all {σ : Type} (envs : Envs) (yield : Bytes → Bytes → σ → Bool × σ)
    (states : Nat → σ) (log : List (Bytes × Bytes))
    (hcont : ∀ i p, (Envs.pairs envs)[i]? = some p →
      yield p.1 p.2 (states i) = (true, states (i + 1))) :
    Envs.Envs envs (traced yield) (states 0, log)
      = (states envs.length, log ++ Envs.pairs envs) := by
  induction envs generalizing states log with
  | nil => simp [Envs.Envs, pairs_eq_map]
  | cons l rest ih =>
    rw [pairs_cons] at hcont ⊢
    have h := hcont 0 ((Cut l (str "=")).1, (Cut l (str "=")).2.1) (by simp)
    have hrec := ih (fun i => states (i + 1)) (log ++ [((Cut l (str "=")).1,
      (Cut l (str "=")).2.1)])
      (fun i p hp => hcont (i + 1) p (by simpa using hp))
    rw [Envs.Envs]
    simp only [traced, h, Bool.not_true, Bool.false_eq_true, if_false]
    simp only [] at hrec
    rw [hrec]
    simp


theorem setAll_nil (env : GoMap) : setAll [] env = env := rfl

theorem setAll_cons (p : Bytes × Bytes) (ps : List (Bytes × Bytes)) (env : GoMap) :
    setAll (p :: ps) env = setAll ps (GoMap.set env p.1 p.2) := rfl

theorem loadEnvsBody_accepted (rule : SetenvRule) (key value : Bytes)
    (st : GoMap × Option Bytes) (h : rule key value = none) :
    loadEnvsBody rule key value st = (true, (GoMap.set st.1 key value, st.2)) := by
  simp [loadEnvsBody, Setenv, h]

theorem loadEnvsBody_rejected (rule : SetenvRule) (key value e : Bytes)
    (st : GoMap × Option Bytes) (h : rule key value = some e) :
    loadEnvsBody rule key value st = (false, (st.1, some e)) := by
  simp [loadEnvsBody, Setenv, h]

/-- The loop of `LoadEnvs` when the primitive accepts every pair. -/
theorem LoadEnvs_accepted (rule : SetenvRule) (envs : Envs) (env : GoMap)
    (h : ∀ p ∈ Envs.pairs envs, rule p.1 p.2 = none) :
    LoadEnvs rule envs env = (setAll (Envs.pairs envs) env, none) := by
  unfold LoadEnvs
  induction envs generalizing env with
  | nil => simp [Envs.Envs, pairs_eq_map, setAll_nil]
  | cons l rest ih =>
    rw [pairs_cons] at h ⊢
    have h0 : rule (Cut l (str "=")).1 (Cut l (str "=")).2.1 = none :=
      h ((Cut l (str "=")).1, (Cut l (str "=")).2.1) (by simp)
    rw [Envs.Envs]
    simp only [loadEnvsBody_accepted rule _ _ _ h0, Bool.not_true, Bool.false_eq_true,
      if_false]
    rw [ih _ (fun p hp => h p (by simp [hp])), setAll_cons]

theorem Load_of_ok (rule : SetenvRule) (r : Reader) (env : GoMap)
    (h : (Parse r).2 = none) : Load rule r env = LoadEnvs rule (Parse r).1 env := by
  simp only [Load, h, ne_eq, not_true_eq_false, if_false]
  split
  · rfl
  · rename_i h2
    have h3 : (LoadEnvs rule (Parse r).1 env).2 = none := not_not.1 h2
    exact Prod.ext rfl h3.symm


/-- Pairs that the primitive accepts, in a form that can be evaluated. -/
theorem accepted_before (rule : SetenvRule) (ps : List (Bytes × Bytes)) (i : Nat)
    (h : ∀ q ∈ ps.take i, rule q.1 q.2 = none) :
    ∀ j q, j < i → ps[j]? = some q → rule q.1 q.2 = none := by
  intro j q hj hq
  apply h q
  rw [← List.getElem?_take_of_lt hj] at hq
  exact List.getElem?_mem hq


/-! ## More facts about single lines -/

theorem mem_TrimLeftFunc (s : Bytes) (f : Nat → Bool) (b : Nat)
    (h : b ∈ TrimLeftFunc s f) : b ∈ s := by
  unfold TrimLeftFunc at h
  split at h
  · simp at h
  · exact List.mem_of_mem_drop h

theorem mem_TrimPrefix (s pre : Bytes) (b : Nat) (h : b ∈ TrimPrefix s pre) : b ∈ s := by
  unfold TrimPrefix at h
  split at h
  · exact List.mem_of_mem_drop h
  · exact h

/-- The bytes of a stripped line are bytes of the line. -/
theorem mem_stripLine (n : Nat) (t : Bytes) (b : Nat) (h : b ∈ stripLine n t) : b ∈ t := by
  unfold stripLine at h
  have h2 := mem_TrimLeftFunc _ _ _ h
  split at h2
  · exact mem_TrimPrefix _ _ _ h2
  · exact h2

/-- Behind line 1 a line that starts with the BOM is inspected as it stands: the
BOM is not removed and is no whitespace. -/
theorem stripLine_utf8BOM_later (n : Nat) (kv : Bytes) (hn : n ≠ 1) :
    stripLine n (utf8BOM ++ kv) = utf8BOM ++ kv := by
  unfold stripLine
  rw [if_neg hn]
  exact TrimLeftFunc_of_first IsSpace 0xEF (0xBB :: 0xBF :: kv)
    (by rw [show (0xEF :: 0xBB :: 0xBF :: kv) = utf8BOM ++ kv from rfl, DecodeRune_utf8BOM]
        decide)

theorem isSkipped_utf8BOM_append (kv : Bytes) : isSkipped (utf8BOM ++ kv) = false := by
  simp [isSkipped, utf8BOM]

theorem candidateKey_utf8BOM_append (kv : Bytes) :
    candidateKey (utf8BOM ++ kv) = utf8BOM ++ candidateKey kv := by
  have hb : 0x3D ∉ utf8BOM := by decide
  rcases candidateKey_split kv with ⟨h1, h2⟩ | ⟨v, h1, h2⟩
  · rw [h1]
    have : 0x3D ∉ utf8BOM ++ kv := by
      intro h
      rcases List.mem_append.1 h with h | h
      · exact hb h
      · exact h2 h
    simp [candidateKey, Cut_of_not_mem _ this]
  · have : 0x3D ∉ utf8BOM ++ candidateKey kv := by
      intro h
      rcases List.mem_append.1 h with h | h
      · exact hb h
      · exact h2 h
    have hc := Cut_append (utf8BOM ++ candidateKey kv) v this
    conv_lhs => rw [h1, ← List.append_assoc]
    simp only [candidateKey] at hc ⊢
    rw [hc]

/-- The element of the result at the place of a line that is not skipped, when
the result has one, is the stripped line. -/
theorem Parse_getElem_of_line (r : Reader) (pre post : List Bytes) (l e : Bytes)
    (h : fileLines r.data = pre ++ l :: post)
    (hs : isSkipped (stripLine (pre.length + 1) l) = false)
    (he : (Parse r).1[(keptLines pre).length]? = some e) :
    e = stripLine (pre.length + 1) l := by
  rcases Parse_cases r with ⟨_, hres⟩ | ⟨_, _, _, msg, _, _, _, hres⟩
  · rw [hres] at he
    obtain ⟨t, ht⟩ := tokens_initial r
    rw [h] at ht
    rcases List.append_eq_append_iff.1 ht with ⟨a, ha, _⟩ | ⟨c, hc, hc2⟩
    · rw [ha] at he
      have hlen : (keptLines (NewScanner r).tokens).length
          ≤ (keptLines ((NewScanner r).tokens ++ a)).length := by
        simp only [keptLines]
        rw [keptFrom_append]
        simp
      rw [List.getElem?_eq_none hlen] at he
      cases he
    · cases c with
      | nil =>
        simp only [List.append_nil] at hc
        rw [hc, List.getElem?_eq_none (le_refl _)] at he
        cases he
      | cons c0 c =>
        simp only [List.cons_append, List.cons.injEq] at hc2
        rw [hc, ← hc2.1] at he
        simp only [keptLines] at he
        rw [keptFrom_append, keptFrom_cons, Nat.add_comm 1 pre.length,
          keptFrom_single_keep _ _ hs, List.getElem?_append_right (le_refl _)] at he
        simpa using he.symm
  · rw [hres] at he
    simp at he


/-- A successful `Parse` that reads a line that is not skipped has the stripped
line in its result, behind the kept lines among the lines before. -/
theorem Parse_getElem_of_read (r : Reader) (pre post : List Bytes) (l : Bytes)
    (h : fileLines r.data = pre ++ l :: post)
    (hfit : ∀ x ∈ (rawLines r.data).take (pre.length + 1), x.length < MaxScanTokenSize)
    (hs : isSkipped (stripLine (pre.length + 1) l) = false)
    (hok : (Parse r).2 = none) :
    (Parse r).1[(keptLines pre).length]? = some (stripLine (pre.length + 1) l) := by
  obtain ⟨post', ht⟩ := tokens_of_fit r pre post l h hfit
  rw [Parse_kept_of_tokens r hok, ht]
  simp only [keptLines]
  rw [keptFrom_append, keptFrom_cons, Nat.add_comm 1 pre.length,
    keptFrom_single_keep _ _ hs, List.getElem?_append_right (le_refl _)]
  simp


/-! ## Carriage returns in front of the newlines -/

theorem crlf_append_of_not_mem (l rest : Bytes) (h : 0x0A ∉ l) :
    crlf (l ++ rest) = l ++ crlf rest := by
  induction l with
  | nil => rfl
  | cons b l ih =>
    have hb : b ≠ 0x0A := fun e => h (by simp [e])
    have hr : 0x0A ∉ l := fun e => h (by simp [e])
    simp [crlf, hb, ih hr]

/-- The bytes of the lines of a stream are bytes of the stream. -/
theorem mem_of_mem_rawLines (d l : Bytes) (b : Nat) (hl : l ∈ rawLines d) (hb : b ∈ l) :
    b ∈ d := by
  induction d generalizing l with
  | nil => simp [rawLines] at hl
  | cons c rest ih =>
    simp only [rawLines] at hl
    split at hl
    · rcases List.mem_cons.1 hl with h | h
      · rw [h] at hb; simp at hb
      · exact List.mem_cons_of_mem _ (ih l h hb)
    · split at hl
      · simp only [List.mem_singleton] at hl
        rw [hl] at hb
        simp only [List.mem_singleton] at hb
        simp [hb]
      · rename_i l0 ls0 h0
        rcases List.mem_cons.1 hl with h | h
        · rw [h] at hb
          rcases List.mem_cons.1 hb with h2 | h2
          · simp [h2]
          · exact List.mem_cons_of_mem _ (ih l0 (by rw [h0]; simp) h2)
        · exact List.mem_cons_of_mem _ (ih l (by rw [h0]; simp [h]) hb)

theorem markedLines_cons_of_nil (b : Nat) (rest : Bytes) (hb : b ≠ 0x0A)
    (h : markedLines rest = []) : markedLines (b :: rest) = [([b], false)] := by
  rw [markedLines, if_neg hb, h]

theorem markedLines_cons_of_cons (b : Nat) (rest : Bytes) (p : Bytes × Bool)
    (ps : List (Bytes × Bool)) (hb : b ≠ 0x0A) (h : markedLines rest = p :: ps) :
    markedLines (b :: rest) = (b :: p.1, p.2) :: ps := by
  rw [markedLines, if_neg hb, h]

theorem rawLines_cons_of_nil (b : Nat) (rest : Bytes) (hb : b ≠ 0x0A)
    (h : rawLines rest = []) : rawLines (b :: rest) = [[b]] := by
  rw [rawLines, if_neg hb, h]

theorem rawLines_cons_of_cons (b : Nat) (rest l : Bytes) (ls : List Bytes) (hb : b ≠ 0x0A)
    (h : rawLines rest = l :: ls) : rawLines (b :: rest) = (b :: l) :: ls := by
  rw [rawLines, if_neg hb, h]

/-- The marked lines are the lines. -/
theorem rawLines_eq_markedLines (d : Bytes) :
    rawLines d = (markedLines d).map (fun p => p.1) := by
  induction d with
  | nil => simp [rawLines, markedLines]
  | cons b rest ih =>
    by_cases hb : b = 0x0A
    · subst hb
      simp [rawLines, markedLines, ih]
    · cases hm : markedLines rest with
      | nil =>
        rw [hm] at ih
        rw [markedLines_cons_of_nil b rest hb hm, rawLines_cons_of_nil b rest hb (by simpa using ih)]
        rfl
      | cons p ps =>
        rw [hm] at ih
        rw [markedLines_cons_of_cons b rest p ps hb hm,
          rawLines_cons_of_cons b rest p.1 (ps.map (fun p => p.1)) hb (by simpa using ih)]
        rfl

/-- The lines of the stream with the carriage returns: the lines that a newline
ends have a carriage return at their end. -/
theorem rawLines_crlf (d : Bytes) :
    rawLines (crlf d)
      = (markedLines d).map (fun p => if p.2 = true then p.1 ++ [0x0D] else p.1) := by
  induction d with
  | nil => simp [rawLines, markedLines, crlf]
  | cons b rest ih =>
    by_cases hb : b = 0x0A
    · subst hb
      simp [crlf, rawLines, markedLines, ih]
    · have hc : crlf (b :: rest) = b :: crlf rest := by rw [crlf, if_neg hb]
      rw [hc]
      cases hm : markedLines rest with
      | nil =>
        rw [hm] at ih
        rw [markedLines_cons_of_nil b rest hb hm,
          rawLines_cons_of_nil b _ hb (by simpa using ih)]
        rfl
      | cons p ps =>
        rw [hm] at ih
        rw [markedLines_cons_of_cons b rest p ps hb hm,
          rawLines_cons_of_cons b _ _ _ hb (by simpa using ih)]
        cases hp : p.2 <;> simp [hp]

theorem dropCR_append_CR (l : Bytes) : dropCR (l ++ [0x0D]) = l := by
  simp [dropCR]

/-- The tokens of the scanner do not change with the carriage returns, when no
line has a carriage return of its own and no line that a newline ends has a
length of `MaxScanTokenSize - 1`. -/
theorem tokens_of_markedLines (P : List (Bytes × Bool))
    (hP : ∀ p ∈ P, 0x0D ∉ p.1 ∧ (p.2 = true → p.1.length + 1 ≠ MaxScanTokenSize)) :
    ((P.map (fun p => if p.2 = true then p.1 ++ [0x0D] else p.1)).takeWhile
        (fun l => l.length < MaxScanTokenSize)).map dropCR
      = ((P.map (fun p => p.1)).takeWhile (fun l => l.length < MaxScanTokenSize)).map dropCR := by
  induction P with
  | nil => rfl
  | cons p ps ih =>
    have hp := hP p (by simp)
    have ih2 := ih (fun x hx => hP x (by simp [hx]))
    have hd : dropCR p.1 = p.1 := dropCR_of_last p.1 (fun hlast =>
      hp.1 (List.mem_of_getLast?_eq_some hlast))
    cases hp2 : p.2 with
    | false =>
      simp only [List.map_cons, hp2, Bool.false_eq_true, if_false, List.takeWhile_cons]
      split
      · simp only [List.map_cons]
        rw [ih2]
      · rfl
    | true =>
      have hne := hp.2 hp2
      have hfit : ((p.1 ++ [0x0D]).length < MaxScanTokenSize) ↔ (p.1.length < MaxScanTokenSize) := by
        rw [List.length_append]
        simp only [List.length_singleton]
        omega
      simp only [List.map_cons, hp2, if_true, List.takeWhile_cons, hfit]
      split
      · simp only [List.map_cons, dropCR_append_CR, hd]
        rw [ih2]
      · rfl

theorem Parse_crlf (d : Bytes) (e : Option Bytes) (hcr : 0x0D ∉ d)
    (hlen : ∀ p ∈ markedLines d, p.2 = true → p.1.length + 1 ≠ MaxScanTokenSize) :
    Parse ⟨crlf d, e⟩ = Parse ⟨d, e⟩ := by
  have htok : (NewScanner ⟨crlf d, e⟩).tokens = (NewScanner ⟨d, e⟩).tokens := by
    simp only [NewScanner]
    rw [rawLines_crlf, rawLines_eq_markedLines d]
    exact tokens_of_markedLines _ (fun p hp =>
      ⟨fun hb => hcr (mem_of_mem_rawLines d p.1 _
        (by rw [rawLines_eq_markedLines]; exact List.mem_map_of_mem _ hp) hb), hlen p hp⟩)
  rw [Parse_eq, Parse_eq, htok]

/-- The bytes of the strings that `Parse` returns are bytes of the stream. -/
theorem mem_of_mem_Parse (r : Reader) (s : Bytes) (b : Nat) (hs : s ∈ (Parse r).1)
    (hb : b ∈ s) : b ∈ r.data := by
  rcases Parse_cases r with ⟨_, hres⟩ | ⟨_, _, _, msg, _, _, _, hres⟩
  · rw [hres] at hs
    simp only [keptLines, keptFrom, List.mem_filter, List.mem_map] at hs
    obtain ⟨⟨p, hp, hps⟩, _⟩ := hs
    have ht : p.2 ∈ (NewScanner r).tokens := by
      have := List.mem_enumFrom hp
      exact this.2.2 ▸ List.getElem_mem _
    have hb2 : b ∈ p.2 := mem_stripLine p.1 p.2 b (by rw [hps]; exact hb)
    have ht2 : p.2 ∈ fileLines r.data := (tokens_initial r).subset ht
    simp only [fileLines, List.mem_map] at ht2
    obtain ⟨l, hl, hl2⟩ := ht2
    have hb3 : b ∈ l := (dropCR_initial l).subset (by rw [hl2]; exact hb2)
    exact mem_of_mem_rawLines r.data l b hl hb3
  · rw [hres] at hs
    simp at hs


/-- A stream whose first line does not fit in the buffer: `Parse` returns no
collection and no error. -/
theorem Parse_of_long_head (d : Bytes) (e : Option Bytes) (l : Bytes) (ls : List Bytes)
    (h : rawLines d = l :: ls) (hl : MaxScanTokenSize ≤ l.length) :
    Parse ⟨d, e⟩ = ([], none) := by
  rw [Parse_eq, tokens_of_long_head ⟨d, e⟩ l ls h hl, parseLoop_nil]


/-- When neither `Parse` nor the scanner has an error, a line N, N at least 2,
that is the BOM followed by any text is in the result with its BOM, behind the
kept lines among the lines before. -/
theorem Parse_bom_later_of_no_scanner_error (r : Reader) (pre post : List Bytes) (kv : Bytes)
    (h : fileLines r.data = pre ++ (utf8BOM ++ kv) :: post) (hpre : pre ≠ [])
    (herr : (NewScanner r).err = none) (hok : (Parse r).2 = none) :
    (Parse r).1[(keptLines pre).length]? = some (utf8BOM ++ kv) := by
  have hn : pre.length + 1 ≠ 1 := by
    cases pre with
    | nil => exact absurd rfl hpre
    | cons a l => simp
  have hstrip := stripLine_utf8BOM_later (pre.length + 1) kv hn
  have hs : isSkipped (stripLine (pre.length + 1) (utf8BOM ++ kv)) = false := by
    rw [hstrip]
    exact isSkipped_utf8BOM_append kv
  rw [Parse_getElem_of_read r pre post (utf8BOM ++ kv) h
    (fun x hx => fit_of_no_scanner_error r herr x (List.mem_of_mem_take hx)) hs hok, hstrip]


/-! ## The claims about later lines, the collection and the environment -/

/-- C11, at the failing input: line 1 is 65536 letters `x`, line 2 is the BOM
followed by `FOO=bar`, and neither line is violating. The first line does not
fit in the scanner's buffer: `Parse` succeeds with an empty collection, in which
no element corresponds to line 2; the scanner has stopped with `ErrTooLong`,
which `Parse` does not look at. -/
theorem parse_bom_later_line_long :
    fileLines (longLine ++ 0x0A :: (utf8BOM ++ str "FOO=bar"))
      = [longLine, utf8BOM ++ str "FOO=bar"] ∧
    violating 1 longLine = false ∧
    violating 2 (utf8BOM ++ str "FOO=bar") = false ∧
    Parse ⟨longLine ++ 0x0A :: (utf8BOM ++ str "FOO=bar"), none⟩ = ([], none) ∧
    (Parse ⟨longLine ++ 0x0A :: (utf8BOM ++ str "FOO=bar"), none⟩).1[
      (keptLines [longLine]).length]? = none ∧
    (NewScanner ⟨longLine ++ 0x0A :: (utf8BOM ++ str "FOO=bar"), none⟩).err
      = some ErrTooLong := by
  have hrest : fileLines (utf8BOM ++ str "FOO=bar") = [utf8BOM ++ str "FOO=bar"] := by decide
  refine ⟨?_, xLine_violating 1 _ MaxScanTokenSize_pos, by decide, Parse_longLine _ none, ?_, ?_⟩
  · rw [fileLines_longLine_newline, hrest]
  · rw [Parse_longLine _ none]
    exact List.getElem?_nil
  · exact NewScanner_err_of_long_head _ none longLine (rawLines (utf8BOM ++ str "FOO=bar"))
      (rawLines_xLine_newline _ _) (by rw [longLine_length])

/-- The statement of C11 on the lines that are read: the BOM is removed on line
1 only. When line N, N at least 2, is the BOM followed by any text, the element
of the result at the place of that line, behind the kept lines among the lines
before, is the whole line, BOM included, and the BOM is part of its key; the
result has that element when the parse succeeds and the lines up to line N fit
in the scanner's buffer. -/
theorem parse_bom_later_line (r : Reader) (pre post : List Bytes) (kv : Bytes)
    (h : fileLines r.data = pre ++ (utf8BOM ++ kv) :: post) (hpre : pre ≠ []) :
    (∀ e, (Parse r).1[(keptLines pre).length]? = some e →
      e = utf8BOM ++ kv ∧ (Cut e (str "=")).1 = utf8BOM ++ (Cut kv (str "=")).1) ∧
    ((∀ x ∈ (rawLines r.data).take (pre.length + 1), x.length < MaxScanTokenSize) →
      (Parse r).2 = none →
      (Parse r).1[(keptLines pre).length]? = some (utf8BOM ++ kv)) := by
  have hn : pre.length + 1 ≠ 1 := by
    cases pre with
    | nil => exact absurd rfl hpre
    | cons a l => simp
  have hstrip := stripLine_utf8BOM_later (pre.length + 1) kv hn
  have hs : isSkipped (stripLine (pre.length + 1) (utf8BOM ++ kv)) = false := by
    rw [hstrip]
    exact isSkipped_utf8BOM_append kv
  constructor
  · intro e he
    have he2 := Parse_getElem_of_line r pre post (utf8BOM ++ kv) e h hs he
    rw [hstrip] at he2
    refine ⟨he2, ?_⟩
    rw [he2]
    exact candidateKey_utf8BOM_append kv
  · intro hfit hok
    rw [Parse_getElem_of_read r pre post (utf8BOM ++ kv) h hfit hs hok, hstrip]

/-- The stream of C11: the key of the second element is U+FEFF followed by
`FOO`. -/
theorem parse_bom_later_line_witness :
    Parse ⟨str "X=1\n" ++ utf8BOM ++ str "FOO=bar", none⟩
        = ([str "X=1", utf8BOM ++ str "FOO=bar"], none) ∧
      (Parse ⟨str "X=1\n" ++ utf8BOM ++ str "FOO=bar", none⟩).1[(keptLines [str "X=1"]).length]?
        = some (utf8BOM ++ str "FOO=bar") ∧
      (Cut (utf8BOM ++ str "FOO=bar") (str "=")).1 = utf8BOM ++ (Cut (str "FOO=bar") (str "=")).1 ∧
      utf8BOM ++ (Cut (str "FOO=bar") (str "=")).1 = EncodeRune 0xFEFF ++ str "FOO" :=
  ⟨by decide,
    (parse_bom_later_line ⟨str "X=1\n" ++ utf8BOM ++ str "FOO=bar", none⟩ [str "X=1"] []
      (str "FOO=bar") (by decide) (by decide)).2 (by decide) (by decide),
    ((parse_bom_later_line ⟨str "X=1\n" ++ utf8BOM ++ str "FOO=bar", none⟩ [str "X=1"] []
      (str "FOO=bar") (by decide) (by decide)).1 (utf8BOM ++ str "FOO=bar") (by decide)).2,
    by decide⟩

/-- C12: the map of `Envs.Map` binds every key to the value of its last pair,
its keys are exactly the keys of the pairs, each once, and its size is the
number of distinct keys. -/
theorem map_last_wins (envs : Envs) :
    (∀ k, (Envs.Map envs).get k = lastValue (Envs.pairs envs) k) ∧
    (∀ k, k ∈ (Envs.Map envs).keys ↔ k ∈ (Envs.pairs envs).map (fun p => p.1)) ∧
    (Envs.Map envs).keys.Nodup ∧
    (Envs.Map envs).length = ((Envs.pairs envs).map (fun p => p.1)).dedup.length := by
  have hkeys : ∀ k, k ∈ (Envs.Map envs).keys ↔ k ∈ (Envs.pairs envs).map (fun p => p.1) := by
    intro k
    rw [Map_eq_setAll, keys_setAll]
    simp [GoMap.keys]
  have hnodup : (Envs.Map envs).keys.Nodup := by
    rw [Map_eq_setAll]
    exact nodup_setAll _ [] (by simp [GoMap.keys])
  refine ⟨?_, hkeys, hnodup, ?_⟩
  · intro k
    rw [Map_eq_setAll, get_setAll]
    cases lastValue (Envs.pairs envs) k <;> simp [GoMap.get]
  · have hperm : (Envs.Map envs).keys.Perm ((Envs.pairs envs).map (fun p => p.1)).dedup :=
      (List.perm_ext_iff_of_nodup hnodup (List.nodup_dedup _)).2
        (fun k => by rw [hkeys k, List.mem_dedup])
    have := hperm.length_eq
    simpa [GoMap.keys] using this

/-- A witness of C12: the later of two pairs with the key `A` wins, and the
collection of the test gives the map of the test. -/
theorem map_last_wins_witness :
    (Envs.Map [str "A=1", str "A=2"]).get (str "A") = some (str "2") ∧
      (Envs.Map [str "A=1", str "A=2"]).length = 1 ∧
      (Envs.Map [str "AAAA=aaaa", str "BBBB=bbbb", str "CCCC=cccc"]).get (str "BBBB")
        = some (str "bbbb") :=
  ⟨((map_last_wins [str "A=1", str "A=2"]).1 (str "A")).trans (by decide), by decide,
    by decide⟩

/-- C13: a full iteration hands out one pair for every element, in the order of
the collection. Of an element with `=` the key has no `=`, and key, `=` and
value make up the element; of an element without `=` the key is the element
and the value is empty. -/
theorem envs_pairs_split (envs : Envs) :
    (Envs.pairs envs).length = envs.length ∧
    ∀ (i : Nat) (e : Bytes), envs[i]? = some e →
      ∃ (k v : Bytes), (Envs.pairs envs)[i]? = some (k, v) ∧
        (0x3D ∈ e → 0x3D ∉ k ∧ k ++ str "=" ++ v = e) ∧ (0x3D ∉ e → k = e ∧ v = []) := by
  refine ⟨pairs_length envs, ?_⟩
  intro i e hi
  refine ⟨(Cut e (str "=")).1, (Cut e (str "=")).2.1, ?_, ?_, ?_⟩
  · rw [pairs_eq_map, List.getElem?_map, hi]
    rfl
  · intro he
    rcases split_at_first 0x3D e with h | ⟨k, v, hs, hk⟩
    · exact absurd he h
    · rw [hs, Cut_append k v hk, str_eq]
      exact ⟨hk, by simp⟩
  · intro he
    rw [Cut_of_not_mem e he]
    exact ⟨rfl, rfl⟩

/-- A witness of C13: the value of `KEY=a=b` is `a=b`, and `KEY` alone has an
empty value. -/
theorem envs_pairs_split_witness :
    Envs.pairs [str "KEY=a=b", str "KEY", str "=v"]
        = [(str "KEY", str "a=b"), (str "KEY", []), ([], str "v")] ∧
      ∃ (k v : Bytes), (Envs.pairs [str "KEY=a=b", str "KEY", str "=v"])[0]? = some (k, v) ∧
        (0x3D ∈ str "KEY=a=b" → 0x3D ∉ k ∧ k ++ str "=" ++ v = str "KEY=a=b") ∧
        (0x3D ∉ str "KEY=a=b" → k = str "KEY=a=b" ∧ v = []) :=
  ⟨by decide,
    (envs_pairs_split [str "KEY=a=b", str "KEY", str "=v"]).2 0 (str "KEY=a=b") (by decide)⟩

/-- C14: a consumer that returns false for the first time at its call number k,
k between 1 and the length of the collection, is called exactly k times, on the
first k pairs in order; a consumer that never returns false is called on every
pair. The calls are those that the traced consumer records; `states i` is the
state of the consumer after i calls. -/
theorem envs_early_termination {σ : Type} (envs : Envs)
    (yield : Bytes → Bytes → σ → Bool × σ) (states : Nat → σ) :
    (∀ k, 1 ≤ k → k ≤ envs.length →
      (∀ i p, i + 1 < k → (Envs.pairs envs)[i]? = some p →
        yield p.1 p.2 (states i) = (true, states (i + 1))) →
      (∀ p, (Envs.pairs envs)[k - 1]? = some p →
        yield p.1 p.2 (states (k - 1)) = (false, states k)) →
      Envs.Envs envs (traced yield) (states 0, []) = (states k, (Envs.pairs envs).take k)) ∧
    ((∀ i p, (Envs.pairs envs)[i]? = some p →
        yield p.1 p.2 (states i) = (true, states (i + 1))) →
      Envs.Envs envs (traced yield) (states 0, []) = (states envs.length, Envs.pairs envs)) := by
  constructor
  · intro k hk1 hk hcont hstop
    obtain ⟨j, rfl⟩ : ∃ j, k = j + 1 := ⟨k - 1, by omega⟩
    have := Envs_traced_stop envs yield states [] j (by omega)
      (fun i p hi hp => hcont i p (by omega) hp)
      (fun p hp => by simpa using hstop p (by simpa using hp))
    simpa using this
  · intro hcont
    have := Envs_traced_all envs yield states [] hcont
    simpa using this

/-- A witness of C14: a consumer that counts its calls and stops at the second
one is called on the first two of three pairs; one that never stops is called
on all three. -/
theorem envs_early_termination_witness :
    Envs.Envs [str "A=1", str "B=2", str "C=3"]
        (traced (fun _ _ n => (decide (n + 1 < 2), n + 1))) (0, [])
      = (2, [(str "A", str "1"), (str "B", str "2")]) ∧
    Envs.Envs [str "A=1", str "B=2", str "C=3"] (traced (fun _ _ n => (true, n + 1))) (0, [])
      = (3, [(str "A", str "1"), (str "B", str "2"), (str "C", str "3")]) := by
  constructor
  · have h := (envs_early_termination [str "A=1", str "B=2", str "C=3"]
      (fun _ _ n => (decide (n + 1 < 2), n + 1)) (fun i => i)).1 2 (by decide) (by decide)
      (fun i p hi _ => by
        have hi0 : i = 0 := by omega
        subst hi0
        rfl)
      (fun p _ => by simp)
    rw [h]
    decide
  · have h := (envs_early_termination [str "A=1", str "B=2", str "C=3"]
      (fun _ _ n => (true, n + 1)) (fun i => i)).2 (fun i p _ => rfl)
    rw [h]
    decide

/-- C15, as the claim states it, fails: the line `FOO` followed by the byte FF
has no `=` and no whitespace, and is neither empty nor a comment, but it is not
accepted: its bytes are not valid UTF-8. -/
theorem parse_line_without_eq_invalid :
    0x3D ∉ str "FOO" ++ [0xFF] ∧
    isSkipped (stripLine 1 (str "FOO" ++ [0xFF])) = false ∧
    ContainsFunc (stripLine 1 (str "FOO" ++ [0xFF])) IsSpace = false ∧
    Parse ⟨str "FOO" ++ [0xFF], none⟩ = ([], some (str "invalid UTF-8 bytes at line 1")) := by
  decide

/-- C15, amended: a line N without `=` that the scanner reads behind lines free
of violations, that is valid UTF-8 and, without its leading whitespace (and the
BOM on line 1), neither empty nor a comment, is accepted exactly when it
contains no whitespace. Without whitespace it is no violation, the loop goes on
with the line appended to the collection, and its pair has the whole line as
the key and an empty value; with whitespace `Parse` fails with the error of the
key that contains whitespace, the key being the whole line. -/
theorem parse_line_without_eq (r : Reader) (pre post : List Bytes) (t : Bytes)
    (h : fileLines r.data = pre ++ t :: post)
    (hfit : ∀ x ∈ (rawLines r.data).take (pre.length + 1), x.length < MaxScanTokenSize)
    (hpre : ∀ i l', pre[i]? = some l' → violating (i + 1) l' = false)
    (hv : Valid t = true) (hne : 0x3D ∉ t)
    (hs : isSkipped (stripLine (pre.length + 1) t) = false) :
    (ContainsFunc (stripLine (pre.length + 1) t) IsSpace = false →
      violating (pre.length + 1) t = false ∧
      Envs.pairs [stripLine (pre.length + 1) t] = [(stripLine (pre.length + 1) t, [])] ∧
      ∃ post', Parse r = parseLoop post' (pre.length + 2)
        (keptLines pre ++ [stripLine (pre.length + 1) t])) ∧
    (ContainsFunc (stripLine (pre.length + 1) t) IsSpace = true →
      Parse r = ([], some (str "the variable key contains whitespace: " ++ [0x27]
        ++ stripLine (pre.length + 1) t ++ [0x27]))) := by
  have hne2 : 0x3D ∉ stripLine (pre.length + 1) t := fun hm => hne (mem_stripLine _ _ _ hm)
  have hkey : candidateKey (stripLine (pre.length + 1) t) = stripLine (pre.length + 1) t := by
    simp [candidateKey, Cut_of_not_mem _ hne2]
  have hk : candidateKey (stripLine (pre.length + 1) t) ≠ [] := by
    rw [hkey]
    intro h0
    rw [h0] at hs
    simp [isSkipped] at hs
  obtain ⟨post', hp⟩ := Parse_at_line r pre post t h hfit hpre
  constructor
  · intro hw
    have hw2 : ContainsFunc (candidateKey (stripLine (pre.length + 1) t)) IsSpace = false := by
      rw [hkey]; exact hw
    refine ⟨(violating_eq_false_iff _ _).2 ⟨hv, Or.inr ⟨hk, hw2⟩⟩, ?_, post', ?_⟩
    · rw [pairs_eq_map]
      simp [Cut_of_not_mem _ hne2]
    · rw [hp, parseLoop_cons_keep t post' _ _ hv hs hk hw2]
      rfl
  · intro hw
    have hw2 : ContainsFunc (candidateKey (stripLine (pre.length + 1) t)) IsSpace = true := by
      rw [hkey]; exact hw
    rw [hp, parseLoop_cons_keySpace t post' _ _ hv hs hk hw2, hkey]
    rfl

/-- A witness of the amended C15: the streams `FOO` and `FOO BAR` of the claim. -/
theorem parse_line_without_eq_witness :
    Parse ⟨str "FOO", none⟩ = ([str "FOO"], none) ∧
    Envs.pairs [stripLine ([] : List Bytes).length.succ (str "FOO")] = [(str "FOO", [])] ∧
    Parse ⟨str "FOO BAR", none⟩
      = ([], some (str "the variable key contains whitespace: \x27FOO BAR\x27")) := by
  have h1 := (parse_line_without_eq ⟨str "FOO", none⟩ [] [] (str "FOO") (by decide) (by decide)
    (before_of_all _ (by decide)) (by decide) (by decide) (by decide)).1 (by decide)
  have h2 := (parse_line_without_eq ⟨str "FOO BAR", none⟩ [] [] (str "FOO BAR") (by decide)
    (by decide) (before_of_all _ (by decide)) (by decide) (by decide) (by decide)).2 (by decide)
  refine ⟨by decide, ?_, ?_⟩
  · rw [h1.2.1]
    decide
  · rw [h2]
    decide

/-- C16: when the primitive accepts every pair of the collection, `LoadEnvs`
returns no error, the environment is the one in which the pairs were set one
after the other, every key of the collection is bound to its value in
`Envs.Map`, and every other variable is as it was. -/
theorem loadEnvs_applies_all (rule : SetenvRule) (envs : Envs) (env : GoMap)
    (hacc : ∀ p ∈ Envs.pairs envs, rule p.1 p.2 = none) :
    LoadEnvs rule envs env = (setAll (Envs.pairs envs) env, none) ∧
    (∀ k, k ∈ (Envs.pairs envs).map (fun p => p.1) →
      (LoadEnvs rule envs env).1.get k = (Envs.Map envs).get k ∧
        ((Envs.Map envs).get k).isSome = true) ∧
    (∀ k, k ∉ (Envs.pairs envs).map (fun p => p.1) →
      (LoadEnvs rule envs env).1.get k = env.get k) := by
  have hload := LoadEnvs_accepted rule envs env hacc
  refine ⟨hload, ?_, ?_⟩
  · intro k hk
    have hsome := (lastValue_isSome (Envs.pairs envs) k).2 hk
    rw [hload, Map_eq_setAll, get_setAll, get_setAll]
    cases hl : lastValue (Envs.pairs envs) k with
    | none => rw [hl] at hsome; cases hsome
    | some v => exact ⟨rfl, rfl⟩
  · intro k hk
    have hnone : lastValue (Envs.pairs envs) k = none := by
      cases hl : lastValue (Envs.pairs envs) k with
      | none => rfl
      | some v =>
        exact absurd ((lastValue_isSome (Envs.pairs envs) k).1 (by rw [hl]; rfl)) hk
    rw [hload, get_setAll, hnone]

/-- A witness of C16: the later of two pairs with the key `A` is the one that
stays, and the variable `Z` is not touched. -/
theorem loadEnvs_applies_all_witness :
    LoadEnvs unixSetenv [str "A=1", str "B=2", str "A=3"] [(str "Z", str "z"), (str "A", str "0")]
        = (setAll (Envs.pairs [str "A=1", str "B=2", str "A=3"])
            [(str "Z", str "z"), (str "A", str "0")], none) ∧
      (LoadEnvs unixSetenv [str "A=1", str "B=2", str "A=3"]
        [(str "Z", str "z"), (str "A", str "0")]).1.get (str "A") = some (str "3") ∧
      (LoadEnvs unixSetenv [str "A=1", str "B=2", str "A=3"]
        [(str "Z", str "z"), (str "A", str "0")]).1.get (str "Z") = some (str "z") :=
  ⟨(loadEnvs_applies_all unixSetenv [str "A=1", str "B=2", str "A=3"]
      [(str "Z", str "z"), (str "A", str "0")] (by decide)).1, by decide, by decide⟩

/-- C17: when the primitive rejects the pair at position i and accepts the
pairs before it, `LoadEnvs` returns the error of the primitive, and the
environment is the one in which exactly the pairs before position i were set:
they stay set, and no later pair is. -/
theorem loadEnvs_fails_fast (rule : SetenvRule) (envs : Envs) (env : GoMap) (i : Nat)
    (p : Bytes × Bytes) (e : Bytes)
    (hp : (Envs.pairs envs)[i]? = some p) (hrej : rule p.1 p.2 = some e)
    (hbefore : ∀ j q, j < i → (Envs.pairs envs)[j]? = some q → rule q.1 q.2 = none) :
    LoadEnvs rule envs env = (setAll ((Envs.pairs envs).take i) env, some e) := by
  unfold LoadEnvs
  induction envs generalizing env i with
  | nil => simp [pairs_eq_map] at hp
  | cons l rest ih =>
    rw [pairs_cons] at hp hbefore ⊢
    cases i with
    | zero =>
      simp only [List.getElem?_cons_zero, Option.some.injEq] at hp
      subst hp
      rw [Envs.Envs]
      simp [loadEnvsBody_rejected rule _ _ e _ hrej, setAll_nil]
    | succ i =>
      have h0 : rule (Cut l (str "=")).1 (Cut l (str "=")).2.1 = none :=
        hbefore 0 ((Cut l (str "=")).1, (Cut l (str "=")).2.1) (by omega) (by simp)
      rw [Envs.Envs]
      simp only [loadEnvsBody_accepted rule _ _ _ h0, Bool.not_true, Bool.false_eq_true,
        if_false]
      rw [ih _ i (by simpa using hp)
        (fun j q hj hq => hbefore (j + 1) q (by omega) (by simpa using hq))]
      simp [setAll_cons]


/-- A witness of C17: the second of three elements has no key; the first pair
is set, the third is not. -/
theorem loadEnvs_fails_fast_witness :
    LoadEnvs unixSetenv [str "A=1", str "=x", str "B=2"] [(str "Z", str "z")]
        = (setAll ((Envs.pairs [str "A=1", str "=x", str "B=2"]).take 1) [(str "Z", str "z")],
            some (str "setenv: invalid argument")) ∧
      setAll ((Envs.pairs [str "A=1", str "=x", str "B=2"]).take 1) [(str "Z", str "z")]
        = [(str "A", str "1"), (str "Z", str "z")] :=
  ⟨loadEnvs_fails_fast unixSetenv [str "A=1", str "=x", str "B=2"] [(str "Z", str "z")] 1
      ([], str "x") (str "setenv: invalid argument") (by decide) (by decide)
      (accepted_before unixSetenv _ 1 (by decide)), by decide⟩

/-- C18, at two failing inputs: the reader fails after the bytes `A=1`, newline,
`B=`, and `Parse` returns the two lines and no error, the second line cut off;
the line behind `A=1` does not fit in the scanner's buffer, the scanner reports
`ErrTooLong`, and `Parse` returns the first line and no error. -/
theorem parse_swallows_scanner_error :
    (NewScanner ⟨str "A=1\nB=", some (str "unexpected EOF")⟩).err
        = some (str "unexpected EOF") ∧
      Parse ⟨str "A=1\nB=", some (str "unexpected EOF")⟩ = ([str "A=1", str "B="], none) ∧
      (NewScanner ⟨str "A=1" ++ 0x0A :: (longLine ++ [0x0A]), none⟩).err = some ErrTooLong ∧
      Parse ⟨str "A=1" ++ 0x0A :: (longLine ++ [0x0A]), none⟩ = ([str "A=1"], none) := by
  have hraw : rawLines (str "A=1" ++ 0x0A :: (longLine ++ [0x0A])) = [str "A=1", longLine] := by
    rw [rawLines_append_newline _ _ (by decide), longLine, rawLines_xLine_newline]
    rfl
  have hshort : (str "A=1").length < MaxScanTokenSize := by decide
  have hlong : ¬ longLine.length < MaxScanTokenSize := by
    rw [longLine_length]; omega
  have htok : (NewScanner ⟨str "A=1" ++ 0x0A :: (longLine ++ [0x0A]), none⟩).tokens
      = [str "A=1"] := by
    simp only [NewScanner, hraw, List.takeWhile_cons, hshort, hlong, decide_True,
      decide_False, if_true, List.map_cons, List.map_nil]
    simp only [Bool.false_eq_true, if_false, List.map_nil]
    decide
  refine ⟨by decide, by decide, ?_, ?_⟩
  · simp only [NewScanner, hraw, List.takeWhile_cons, hshort, hlong, decide_True,
      decide_False, if_true]
    simp
  · rw [Parse_eq, htok]
    decide

/-- C19, as the claim states it, fails: a line of 65535 letters `x` and its
newline are parsed, but with a carriage return in front of the newline the line
does not fit in the scanner's buffer, and `Parse` returns an empty collection. -/
theorem parse_crlf_long :
    0x0D ∉ fullLine ++ [0x0A] ∧
    Parse ⟨fullLine ++ [0x0A], none⟩ = ([fullLine], none) ∧
    Parse ⟨crlf (fullLine ++ [0x0A]), none⟩ = ([], none) ∧
    Parse ⟨crlf (fullLine ++ [0x0A]), none⟩ ≠ Parse ⟨fullLine ++ [0x0A], none⟩ := by
  have h1 : Parse ⟨fullLine ++ [0x0A], none⟩ = ([fullLine], none) := by
    have hraw : rawLines (fullLine ++ [0x0A]) = [fullLine] := by
      rw [fullLine, rawLines_xLine_newline]
      rfl
    have hfit : ∀ x ∈ rawLines (fullLine ++ [0x0A]), x.length < MaxScanTokenSize := by
      intro x hx
      rw [hraw, List.mem_singleton] at hx
      rw [hx, fullLine, xLine_length, MaxScanTokenSize_eq]
      omega
    rw [Parse_eq, tokens_eq_fileLines ⟨fullLine ++ [0x0A], none⟩ hfit]
    simp only [fileLines, hraw, List.map_cons, List.map_nil]
    rw [fullLine, xLine_dropCR, parseLoop_cons_ok _ _ _ _ (xLine_violating 1 _ (by omega)),
      parseLoop_nil, keptFrom_single_keep _ _ (xLine_isSkipped 1 _ (by omega)),
      xLine_stripLine 1 _ (by omega)]
    rfl
  have h2 : Parse ⟨crlf (fullLine ++ [0x0A]), none⟩ = ([], none) := by
    have hc : crlf (fullLine ++ [0x0A]) = (fullLine ++ [0x0D]) ++ 0x0A :: [] := by
      rw [crlf_append_of_not_mem fullLine [0x0A] (xLine_not_mem 65535 0x0A (by decide))]
      simp [crlf]
    have hnl : 0x0A ∉ fullLine ++ [0x0D] := by
      intro hm
      rcases List.mem_append.1 hm with hm | hm
      · exact xLine_not_mem _ 0x0A (by decide) hm
      · simp at hm
    have hraw : rawLines (crlf (fullLine ++ [0x0A])) = (fullLine ++ [0x0D]) :: rawLines [] := by
      rw [hc, rawLines_append_newline _ _ hnl]
    have hlen : MaxScanTokenSize ≤ (fullLine ++ [0x0D]).length := by
      rw [List.length_append, List.length_singleton, fullLine, xLine_length,
        MaxScanTokenSize_eq]
    exact Parse_of_long_head _ none _ _ hraw hlen
  refine ⟨?_, h1, h2, ?_⟩
  · intro hm
    rcases List.mem_append.1 hm with hm | hm
    · exact xLine_not_mem _ 0x0D (by decide) hm
    · simp at hm
  · rw [h1, h2]
    intro h
    exact List.cons_ne_nil _ _ (congrArg Prod.fst h).symm

/-- C19, amended: for a stream without a carriage return in which no line that
a newline ends has a length of 65535 bytes, `Parse` returns the same collection
and the same error when every newline is replaced by a carriage return and a
newline, and no element of the result ends in a carriage return. -/
theorem parse_crlf_equiv (d : Bytes) (e : Option Bytes) (hcr : 0x0D ∉ d)
    (hlen : ∀ p ∈ markedLines d, p.2 = true → p.1.length + 1 ≠ MaxScanTokenSize) :
    Parse ⟨crlf d, e⟩ = Parse ⟨d, e⟩ ∧
      ∀ s ∈ (Parse ⟨crlf d, e⟩).1, s.getLast? ≠ some 0x0D := by
  have heq := Parse_crlf d e hcr hlen
  refine ⟨heq, ?_⟩
  intro s hs hlast
  rw [heq] at hs
  exact hcr (mem_of_mem_Parse ⟨d, e⟩ s _ hs (List.mem_of_getLast?_eq_some hlast))

/-- A witness of the amended C19: the first test file and a stream with an
error on line 3. -/
theorem parse_crlf_equiv_witness :
    Parse ⟨crlf (str "FOO=foo\nBAR= bar bar\nBAZ=baz # baz\n"), none⟩
        = Parse ⟨str "FOO=foo\nBAR= bar bar\nBAZ=baz # baz\n", none⟩ ∧
      crlf (str "FOO=foo\nBAR= bar bar\nBAZ=baz # baz\n")
        = str "FOO=foo\r\nBAR= bar bar\r\nBAZ=baz # baz\r\n" ∧
      Parse ⟨crlf (str "A=1\n\n=x"), none⟩ = ([], some (str "no variable key on line 3")) :=
  ⟨(parse_crlf_equiv (str "FOO=foo\nBAR= bar bar\nBAZ=baz # baz\n") none (by decide)
      (by decide)).1, by decide,
    ((parse_crlf_equiv (str "A=1\n\n=x") none (by decide) (by decide)).1).trans (by decide)⟩

/-- C20: when `Parse` returns an error, `Load` returns that error and the
environment is as it was: nothing is set before the whole stream is parsed. -/
theorem load_parse_error (rule : SetenvRule) (r : Reader) (env : GoMap) (e : Bytes)
    (h : (Parse r).2 = some e) : Load rule r env = (env, some e) := by
  unfold Load
  rw [if_pos (by rw [h]; exact Option.some_ne_none e), h]

/-- A witness of C20: the assignment of line 1 is valid, line 2 has no key, and
the variable `A` is not set. -/
theorem load_parse_error_witness :
    Load unixSetenv ⟨str "A=1\n=x", none⟩ [(str "Z", str "z")]
        = ([(str "Z", str "z")], some (str "no variable key on line 2")) ∧
      (Load unixSetenv ⟨str "A=1\n=x", none⟩ [(str "Z", str "z")]).1.get (str "A") = none :=
  ⟨load_parse_error unixSetenv ⟨str "A=1\n=x", none⟩ [(str "Z", str "z")]
      (str "no variable key on line 2") (by decide), by decide⟩

end Envfile
